import Mathlib

/-!
# Verification of the go-dsp FFT package (`fft/fft.go`)

Shallow embedding of the fast-Fourier-transform engine of the go-dsp
repository.  Sequences of `complex128` are modelled as `List ℂ` over
idealized (exact real) arithmetic; `math.Sincos θ` composed into
`complex(cos θ, sin θ)` is modelled as `Complex.exp (θ * I)`.

Go slices used as working buffers inside `radix2FFT` are modelled as total
functions `ℕ → ℂ`; a slice write `t[i] = v` becomes `Function.update t i v`.
Indices outside `[0, len)` are never read on the executed paths.

Code that panics (index out of range, explicit `panic`) is modelled with
`Option`: `none` is a panic, `some r` a normal return.

The package-global `worker_pool_size` and `runtime.GOMAXPROCS(0)` are
threaded through the definitions as explicit parameters (state passing).
-/

namespace GoDSP

open Complex

noncomputable section

/-- `complex(cos θ, sin θ)` for `sin, cos := math.Sincos(θ)`, idealized:
this is `e^{iθ}` by Euler's formula. -/
def cisR (θ : ℝ) : ℂ := Complex.exp (θ * Complex.I)

/-- The primitive `N`-th root of unity `e^{-2πi/N}` used by the forward
transform's twiddle factors. -/
def omegaC (N : ℕ) : ℂ := Complex.exp (-(2 * Real.pi / N) * Complex.I)

end

/-! ## dsputils helpers

`IsPowerOf2`, `NextPowerOf2`, `ZeroPad` and `ToComplex` are the dsputils
functions used by `fft.go` (their bodies appear in the repository's earlier
single-package revision of the fft source). -/

/-- Go: `return x & (x - 1) == 0` (note both `0` and `1` satisfy it;
`0 - 1` in Go two's complement gives all ones, matching `Nat` truncated
subtraction `0 - 1 = 0` here: `0 &&& 0 = 0`). -/
def IsPowerOf2 (x : ℕ) : Bool := x &&& (x - 1) == 0

/-- Go: `int(math.Pow(2, math.Ceil(math.Log2(float64(x)))))` when `x` is not
a power of two, else `x`; idealized to the exact `2 ^ ⌈log₂ x⌉`. -/
def NextPowerOf2 (x : ℕ) : ℕ := if IsPowerOf2 x then x else 2 ^ Nat.clog 2 x

/-- Go `ZeroPad`: returns `x` unchanged if the length matches, else copies
`x` into a fresh zero slice of the requested length (`copy` truncates when
`length < len(x)`). -/
def ZeroPad (x : List ℂ) (len : ℕ) : List ℂ :=
  if x.length = len then x else x.take len ++ List.replicate (len - x.length) 0

/-- Go `ToComplex`: lifts a real slice elementwise. -/
def ToComplex (x : List ℝ) : List ℂ := x.map (fun v : ℝ => (v : ℂ))

/-! ## Bit helpers (`log2`, `reverseBits`) -/

/-- The loop of Go `log2`: `for v >>= 1; v != 0; v >>= 1 { r++ }` counts,
starting from the already-shifted value, how many shifts stay nonzero. -/
def log2run : ℕ → ℕ
  | 0 => 0
  | (v + 1) => 1 + log2run ((v + 1) / 2)
decreasing_by exact Nat.div_lt_self (Nat.succ_pos v) (by omega)

/-- Go `log2` (from fft.go): the loop above applied after the initial
`v >>= 1`. -/
def log2 (v : ℕ) : ℕ := log2run (v / 2)

/-- The loop of Go `reverseBits`, already past the initialization:
state `(v, r, s)` with `v` the remaining bits (post-shift), `r` the
accumulated reversal, `s` the remaining shift count.  `s` is a Go `uint`;
on all executed paths (`v < 2^s`) no underflow occurs, so `Nat` truncated
subtraction is faithful. -/
def revLoop : ℕ → ℕ → ℕ → ℕ × ℕ
  | 0, r, s => (r, s)
  | (v + 1), r, s => revLoop ((v + 1) / 2) (2 * r + (v + 1) % 2) (s - 1)
decreasing_by exact Nat.div_lt_self (Nat.succ_pos v) (by omega)

/-- Go `reverseBits(v, s)`: returns the first `s` bits of `v` in reverse
order (`r = v & 1; s--;` loop; `return r << s`). -/
def reverseBits (v s : ℕ) : ℕ :=
  let p := revLoop (v / 2) (v % 2) (s - 1)
  p.1 <<< p.2

/-- Mathematical bit reversal of the low `s` bits of `v` (specification
form, used to reason about `reverseBits`). -/
def bitRev : ℕ → ℕ → ℕ
  | 0, _ => 0
  | (s + 1), v => bitRev s (v / 2) + (v % 2) * 2 ^ s

end GoDSP

namespace GoDSP

/-! ### Lemmas about the bit helpers -/

theorem log2run_two_pow (s : ℕ) : log2run (2 ^ s) = s + 1 := by
  induction s with
  | zero =>
      rw [show (2 : ℕ) ^ 0 = 0 + 1 from rfl, log2run]
      norm_num [log2run]
  | succ n ih =>
      rw [show (2 : ℕ) ^ (n + 1) = (2 ^ n * 2 - 1) + 1 by
        have := @Nat.one_le_two_pow n; omega]
      rw [log2run]
      have h2 : ((2 ^ n * 2 - 1) + 1) / 2 = 2 ^ n := by
        have := @Nat.one_le_two_pow n; omega
      rw [h2, ih]; omega

theorem log2_two_pow (s : ℕ) : log2 (2 ^ s) = s := by
  cases s with
  | zero => simp [log2, log2run]
  | succ n =>
      unfold log2
      rw [show (2 : ℕ) ^ (n + 1) / 2 = 2 ^ n by
        rw [pow_succ, Nat.mul_div_cancel] <;> omega]
      exact log2run_two_pow n |>.trans (by omega)

theorem bitRev_zero_right (s : ℕ) : bitRev s 0 = 0 := by
  induction s with
  | zero => rfl
  | succ n ih => simp [bitRev, ih]

theorem bitRev_lt {s v : ℕ} (h : v < 2 ^ s) : bitRev s v < 2 ^ s := by
  induction s generalizing v with
  | zero => interval_cases v <;> simp [bitRev]
  | succ n ih =>
      have h1 : v / 2 < 2 ^ n := by
        have : v < 2 ^ n * 2 := by rw [← pow_succ]; exact h
        omega
      have h2 := ih h1
      have h3 : v % 2 ≤ 1 := by omega
      have : bitRev n (v / 2) + v % 2 * 2 ^ n < 2 ^ n + 1 * 2 ^ n := by
        rcases Nat.lt_or_ge (v % 2) 1 with h4 | h4
        · nlinarith
        · nlinarith
      calc bitRev (n + 1) v = bitRev n (v / 2) + v % 2 * 2 ^ n := rfl
        _ < 2 ^ n + 1 * 2 ^ n := this
        _ = 2 ^ (n + 1) := by ring

theorem bitRev_pad {v m : ℕ} (j : ℕ) (h : v < 2 ^ m) :
    bitRev (m + j) v = bitRev m v * 2 ^ j := by
  induction m generalizing v with
  | zero =>
      interval_cases v
      simp [bitRev_zero_right, bitRev]
  | succ n ih =>
      have h1 : v / 2 < 2 ^ n := by
        have : v < 2 ^ n * 2 := by rw [← pow_succ]; exact h
        omega
      have : n + 1 + j = (n + j) + 1 := by omega
      rw [this]
      show bitRev (n + j) (v / 2) + v % 2 * 2 ^ (n + j)
      = (bitRev n (v / 2) + v % 2 * 2 ^ n) * 2 ^ j
      rw [ih h1, pow_add]
      ring

theorem revLoop_zero (r s : ℕ) : revLoop 0 r s = (r, s) := by
  rw [revLoop]

theorem revLoop_succ (v r s : ℕ) :
    revLoop (v + 1) r s = revLoop ((v + 1) / 2) (2 * r + (v + 1) % 2) (s - 1) := by
  rw [revLoop]

theorem revLoop_spec (k : ℕ) : ∀ v r s : ℕ, 2 ^ k ≤ v → v < 2 ^ (k + 1) →
    revLoop v r s = (r * 2 ^ (k + 1) + bitRev (k + 1) v, s - (k + 1)) := by
  induction k with
  | zero =>
      intro v r s h1 h2
      have hv : v = 1 := by omega
      subst hv
      rw [show (1 : ℕ) = 0 + 1 from rfl, revLoop_succ]
      norm_num [revLoop_zero, bitRev, bitRev_zero_right]
      ring
  | succ n ih =>
      intro v r s h1 h2
      have hp : (2 : ℕ) ^ (n + 1) = 2 ^ n * 2 := by ring
      have hv2 : 2 ≤ v := by
        have := @Nat.one_le_two_pow n; omega
      obtain ⟨w, hw⟩ : ∃ w, v = w + 1 := ⟨v - 1, by omega⟩
      subst hw
      rw [revLoop_succ]
      have hd1 : 2 ^ n ≤ (w + 1) / 2 := by omega
      have hd2 : (w + 1) / 2 < 2 ^ (n + 1) := by
        have : 2 ^ (n + 2) = 2 ^ (n + 1) * 2 := by ring
        omega
      rw [ih _ _ _ hd1 hd2]
      have hrev : bitRev (n + 2) (w + 1)
          = bitRev (n + 1) ((w + 1) / 2) + ((w + 1) % 2) * 2 ^ (n + 1) := rfl
      simp only [Prod.mk.injEq]
      refine ⟨?_, by omega⟩
      rw [hrev]
      have : (2 : ℕ) ^ (n + 2) = 2 ^ (n + 1) * 2 := by ring
      rw [this]
      ring

theorem reverseBits_eq_bitRev {v s : ℕ} (h : v < 2 ^ s) :
    reverseBits v s = bitRev s v := by
  rcases Nat.eq_zero_or_pos v with hv | hv
  · subst hv
    simp [reverseBits, revLoop_zero, bitRev_zero_right]
  · -- pick k with 2^k ≤ v < 2^(k+1)
    obtain ⟨k, hk1, hk2⟩ : ∃ k, 2 ^ k ≤ v ∧ v < 2 ^ (k + 1) :=
      ⟨Nat.log 2 v, Nat.pow_log_le_self 2 (by omega),
        Nat.lt_pow_succ_log_self (by omega) v⟩
    have hks : k + 1 ≤ s := by
      by_contra hcon
      have : s ≤ k := by omega
      have : (2 : ℕ) ^ s ≤ 2 ^ k := Nat.pow_le_pow_right (by omega) this
      omega
    rcases Nat.eq_zero_or_pos k with hk0 | hkpos
    · subst hk0
      have hv1 : v = 1 := by omega
      subst hv1
      have hs : 1 + (s - 1) = s := by omega
      have hpad := @bitRev_pad 1 1 (s - 1) (by omega)
      rw [hs] at hpad
      show (revLoop (1 / 2) (1 % 2) (s - 1)).1 <<< (revLoop (1 / 2) (1 % 2) (s - 1)).2 = _
      norm_num [revLoop_zero]
      rw [hpad]
      simp [bitRev, bitRev_zero_right, Nat.shiftLeft_eq]
    · -- v ≥ 2, so v / 2 has k bits
      have hd1 : 2 ^ (k - 1) ≤ v / 2 := by
        have hk : 2 ^ k = 2 ^ (k - 1) * 2 := by
          rw [← pow_succ]; congr 1; omega
        omega
      have hd2 : v / 2 < 2 ^ (k - 1 + 1) := by
        have hkk : k - 1 + 1 = k := by omega
        rw [hkk]
        have hk : 2 ^ (k + 1) = 2 ^ k * 2 := by ring
        omega
      show (revLoop (v / 2) (v % 2) (s - 1)).1 <<< (revLoop (v / 2) (v % 2) (s - 1)).2 = _
      rw [revLoop_spec (k - 1) _ _ _ hd1 hd2]
      have hkk : k - 1 + 1 = k := by omega
      rw [hkk]
      have hrev : bitRev (k + 1) v = bitRev k (v / 2) + (v % 2) * 2 ^ k := rfl
      have hs : (k + 1) + (s - (k + 1)) = s := by omega
      have hpad := @bitRev_pad v (k + 1) (s - (k + 1)) hk2
      rw [hs] at hpad
      rw [hpad, hrev, Nat.shiftLeft_eq]
      simp only
      congr 1
      · ring
      · congr 1
        omega

theorem bitRev_add_high {s w b : ℕ} (hw : w < 2 ^ s) (hb : b ≤ 1) :
    bitRev (s + 1) (w + b * 2 ^ s) = 2 * bitRev s w + b := by
  induction s generalizing w b with
  | zero =>
      interval_cases w
      interval_cases b
      · simp [bitRev, bitRev_zero_right]
      · simp [bitRev, bitRev_zero_right]
  | succ n ih =>
      have he : (2 : ℕ) ^ (n + 1) = 2 ^ n * 2 := by ring
      have h1 : (w + b * 2 ^ (n + 1)) / 2 = w / 2 + b * 2 ^ n := by
        rw [he]
        rcases (by omega : b = 0 ∨ b = 1) with rfl | rfl <;> omega
      have h2 : (w + b * 2 ^ (n + 1)) % 2 = w % 2 := by
        rw [he]
        rcases (by omega : b = 0 ∨ b = 1) with rfl | rfl <;> omega
      have hw2 : w / 2 < 2 ^ n := by
        have : w < 2 ^ n * 2 := by rw [← pow_succ]; exact hw
        omega
      show bitRev (n + 1) ((w + b * 2 ^ (n + 1)) / 2)
          + ((w + b * 2 ^ (n + 1)) % 2) * 2 ^ (n + 1) = _
      rw [h1, h2, ih hw2 hb]
      show 2 * bitRev n (w / 2) + b + w % 2 * 2 ^ (n + 1)
          = 2 * (bitRev n (w / 2) + w % 2 * 2 ^ n) + b
      have : 2 ^ (n + 1) = 2 * 2 ^ n := by ring
      rw [this]
      ring

theorem bitRev_bitRev {s v : ℕ} (h : v < 2 ^ s) :
    bitRev s (bitRev s v) = v := by
  induction s generalizing v with
  | zero => interval_cases v; simp [bitRev_zero_right]
  | succ n ih =>
      have hv2 : v / 2 < 2 ^ n := by
        have : v < 2 ^ n * 2 := by rw [← pow_succ]; exact h
        omega
      have hb : v % 2 ≤ 1 := by omega
      show bitRev (n + 1) (bitRev n (v / 2) + (v % 2) * 2 ^ n) = v
      rw [bitRev_add_high (bitRev_lt hv2) hb, ih hv2]
      omega

theorem bitRev_injOn {s v w : ℕ} (hv : v < 2 ^ s) (hw : w < 2 ^ s)
    (h : bitRev s v = bitRev s w) : v = w := by
  have := congrArg (bitRev s) h
  rwa [bitRev_bitRev hv, bitRev_bitRev hw] at this

/-! ### The power-of-two test -/

theorem land_self_eq (n : ℕ) : n &&& n = n := by
  apply Nat.eq_of_testBit_eq
  intro i
  simp [Nat.testBit_land]

theorem IsPowerOf2_iff (x : ℕ) (hx : 1 ≤ x) :
    IsPowerOf2 x = true ↔ ∃ s, x = 2 ^ s := by
  induction x using Nat.strong_induction_on with
  | _ x ih =>
      rcases Nat.even_or_odd x with ⟨y, hy⟩ | ⟨y, hy⟩
      · -- even: x = 2y with y ≥ 1
        have hy1 : 1 ≤ y := by omega
        have hx2 : x = Nat.bit false y := by
          simp [Nat.bit_val]; omega
        have hx1 : x - 1 = Nat.bit true (y - 1) := by
          simp [Nat.bit_val]; omega
        have hland : x &&& (x - 1) = Nat.bit false (y &&& (y - 1)) := by
          rw [hx1, hx2, Nat.land_bit]; simp
        have hbit : Nat.bit false (y &&& (y - 1)) = 2 * (y &&& (y - 1)) := by
          simp [Nat.bit_val]
        constructor
        · intro h
          have h0 : x &&& (x - 1) = 0 := by
            simpa [IsPowerOf2] using h
          rw [hland, hbit] at h0
          have : y &&& (y - 1) = 0 := by omega
          have hyp : IsPowerOf2 y = true := by
            simpa [IsPowerOf2] using this
          obtain ⟨s, hs⟩ := (ih y (by omega) hy1).mp hyp
          exact ⟨s + 1, by rw [pow_succ]; omega⟩
        · rintro ⟨s, hs⟩
          rcases s with _ | t
          · omega
          · have hyp2 : y = 2 ^ t := by
              have : x = 2 ^ t * 2 := by rw [hs, pow_succ]
              omega
            have : IsPowerOf2 y = true := (ih y (by omega) hy1).mpr ⟨t, hyp2⟩
            have h0 : y &&& (y - 1) = 0 := by simpa [IsPowerOf2] using this
            have : x &&& (x - 1) = 0 := by rw [hland, hbit]; omega
            simpa [IsPowerOf2] using this
      · -- odd: x = 2y + 1
        rcases Nat.eq_zero_or_pos y with hy0 | hy1
        · subst hy0
          have : x = 1 := by omega
          subst this
          constructor
          · intro _; exact ⟨0, rfl⟩
          · intro _; rfl
        · -- odd and ≥ 3: land is 2y ≠ 0, and not a power of two
          have hx2 : x = Nat.bit true y := by simp [Nat.bit_val]; omega
          have hx1 : x - 1 = Nat.bit false y := by simp [Nat.bit_val]; omega
          have hland : x &&& (x - 1) = Nat.bit false (y &&& y) := by
            rw [hx1, hx2, Nat.land_bit]; simp
          rw [land_self_eq] at hland
          have hbit : Nat.bit false y = 2 * y := by simp [Nat.bit_val]
          constructor
          · intro h
            have h0 : x &&& (x - 1) = 0 := by simpa [IsPowerOf2] using h
            rw [hland, hbit] at h0
            omega
          · rintro ⟨s, hs⟩
            rcases s with _ | t
            · omega
            · exfalso
              have : x = 2 ^ t * 2 := by rw [hs, pow_succ]
              omega

theorem NextPowerOf2_pow2 {x : ℕ} (hx : 1 ≤ x) :
    ∃ s, NextPowerOf2 x = 2 ^ s := by
  unfold NextPowerOf2
  by_cases h : IsPowerOf2 x = true
  · rw [if_pos h]; exact (IsPowerOf2_iff x hx).mp h
  · rw [if_neg h]; exact ⟨Nat.clog 2 x, rfl⟩

theorem le_NextPowerOf2 {x : ℕ} (hx : 1 ≤ x) : x ≤ NextPowerOf2 x := by
  unfold NextPowerOf2
  by_cases h : IsPowerOf2 x = true
  · rw [if_pos h]
  · rw [if_neg h]
    exact Nat.le_pow_clog (by omega) x

/-! ### The root of unity `ω_N = e^{-2πi/N}` -/

theorem cisR_add (a b : ℝ) : cisR (a + b) = cisR a * cisR b := by
  unfold cisR
  rw [← Complex.exp_add]
  congr 1
  push_cast
  ring

theorem cisR_zero : cisR 0 = 1 := by
  simp [cisR]

theorem omegaC_def (N : ℕ) : omegaC N = cisR (-(2 * Real.pi / N)) := by
  unfold omegaC cisR
  congr 1
  push_cast
  ring

theorem isPrimitiveRoot_omegaC {N : ℕ} (hN : 1 ≤ N) :
    IsPrimitiveRoot (omegaC N) N := by
  have h := Complex.isPrimitiveRoot_exp N (by omega)
  have heq : omegaC N = (Complex.exp (2 * Real.pi * Complex.I / N))⁻¹ := by
    rw [← Complex.exp_neg]
    unfold omegaC
    congr 1
    ring
  rw [heq]
  exact h.inv

theorem omegaC_ne_zero (N : ℕ) : omegaC N ≠ 0 := Complex.exp_ne_zero _

theorem omegaC_pow_self {N : ℕ} (hN : 1 ≤ N) : omegaC N ^ N = 1 :=
  (isPrimitiveRoot_omegaC hN).pow_eq_one

theorem omegaC_pow_eq_one_iff {N : ℕ} (hN : 1 ≤ N) (d : ℤ) :
    omegaC N ^ d = 1 ↔ (N : ℤ) ∣ d :=
  (isPrimitiveRoot_omegaC hN).zpow_eq_one_iff_dvd d

theorem omegaC_double_sq (N : ℕ) (hN : 1 ≤ N) : omegaC (2 * N) ^ 2 = omegaC N := by
  unfold omegaC
  rw [← Complex.exp_nat_mul]
  congr 1
  have hN0 : (N : ℂ) ≠ 0 := by exact_mod_cast (by omega : N ≠ 0)
  push_cast
  field_simp
  ring

theorem omegaC_double_pow (N : ℕ) (hN : 1 ≤ N) : omegaC (2 * N) ^ N = -1 := by
  unfold omegaC
  rw [← Complex.exp_nat_mul]
  have hN0 : (N : ℂ) ≠ 0 := by exact_mod_cast (by omega : N ≠ 0)
  have harg : (N : ℂ) * (-(2 * Real.pi / (2 * N : ℕ)) * Complex.I)
      = -(Real.pi * Complex.I) := by
    push_cast
    field_simp
    ring
  rw [harg]
  rw [show -((Real.pi : ℂ) * Complex.I) = -(Real.pi : ℂ) * Complex.I by ring]
  rw [show (-(Real.pi : ℂ)) = ((-Real.pi : ℝ) : ℂ) by push_cast; ring]
  rw [Complex.exp_mul_I]
  simp [Real.cos_pi, Real.sin_pi]

/-- Orthogonality of the discrete characters: the geometric sum over one
period vanishes unless `N ∣ d`. -/
theorem omegaC_orthogonal {N : ℕ} (hN : 1 ≤ N) (d : ℤ) :
    (∑ u ∈ Finset.range N, omegaC N ^ (d * u)) = if (N : ℤ) ∣ d then (N : ℂ) else 0 := by
  by_cases hdvd : (N : ℤ) ∣ d
  · rw [if_pos hdvd]
    have hone : ∀ u ∈ Finset.range N, omegaC N ^ (d * u) = 1 := by
      intro u _
      rw [omegaC_pow_eq_one_iff hN]
      exact Dvd.dvd.mul_right hdvd u
    rw [Finset.sum_congr rfl hone]
    simp
  · rw [if_neg hdvd]
    have hbase : omegaC N ^ d ≠ 1 := fun h => hdvd ((omegaC_pow_eq_one_iff hN d).mp h)
    have hrw : ∀ u ∈ Finset.range N, omegaC N ^ (d * u) = (omegaC N ^ d) ^ u := by
      intro u _
      rw [← zpow_natCast (omegaC N ^ d) u, ← zpow_mul]
    rw [Finset.sum_congr rfl hrw, geom_sum_eq hbase]
    have : (omegaC N ^ d) ^ N = 1 := by
      rw [← zpow_natCast (omegaC N ^ d) N, ← zpow_mul, mul_comm, zpow_mul]
      rw [zpow_natCast (omegaC N) N, omegaC_pow_self hN]
      simp
    rw [this]
    simp

/-! ## The twiddle-factor cache (`getRadix2Factors`, `getBluesteinFactors`)

The Go cache is a process-global map under a reader/writer lock; entries are
created once per length and never mutated (double-checked locking).  We model
the *contents* of an entry as a pure function of its length: `radix2Factors`
is seeded with `{4: [1, -i, -1, i]}` and the population loop fills every
power of two `8 ≤ i ≤ L` from the `i/2` entry. -/

noncomputable section

/-- Table contents for length `2 ^ (m + 2)`.  `radix2FactorsExp 0` is the
seeded entry for length 4 (`complex(1,0), complex(0,-1), complex(-1,0),
complex(0,1)`); step `m+1` is one iteration of the population loop for
`i = 2^(m+3)`: even indices copy the previous table, odd indices are
`complex(cos, sin)` of `Sincos(-2·π/i·n)`. -/
def radix2FactorsExp : ℕ → List ℂ
  | 0 => [1, -Complex.I, -1, Complex.I]
  | (m + 1) =>
      let i := 2 ^ (m + 3)
      let prev := radix2FactorsExp m
      List.ofFn fun n : Fin (i) =>
        if (n : ℕ) % 2 = 0 then prev.getD ((n : ℕ) / 2) 0
        else cisR (-2 * Real.pi / i * n)

/-- Go `getRadix2Factors(input_len)`: the map holds entries exactly at the
powers of two `≥ 4` (the seed plus what the loop populates); any other key
reads as `nil`, modelled as `[]`. -/
def getRadix2Factors (input_len : ℕ) : List ℂ :=
  if 4 ≤ input_len ∧ IsPowerOf2 input_len then radix2FactorsExp (log2 input_len - 2)
  else []

/-- Go `getBluesteinFactors` (first component): `complex(cos, sin)` of
`Sincos(π/input_len·i²)`, with `i = 0` special-cased to `(sin, cos) = (0, 1)`. -/
def bluesteinFactors (input_len : ℕ) : List ℂ :=
  List.ofFn fun i : Fin (input_len) =>
    if (i : ℕ) = 0 then 1 else cisR (Real.pi / input_len * ((i : ℕ) * (i : ℕ)))

/-- Go `getBluesteinFactors` (second component): `complex(cos, -sin)`,
i.e. `cisR` of the negated angle. -/
def bluesteinInvFactors (input_len : ℕ) : List ℂ :=
  List.ofFn fun i : Fin (input_len) =>
    if (i : ℕ) = 0 then 1 else cisR (-(Real.pi / input_len * ((i : ℕ) * (i : ℕ))))

/-! ## `radix2FFT`: worker body, job partitioning, stage loop

Buffers `r`, `t` are Go slices of length `lx`, modelled as total functions
`ℕ → ℂ` (writes become `Function.update`; indices `≥ lx` are never read on
executed paths).  Worker goroutines write disjoint index ranges of `t` and
synchronize through a per-stage barrier (`results` channel), so the stage's
effect is the sequential composition of its work items, which is how we
model it. -/

/-- The `stage == 2` branch of the worker body for one block:
`t[nb] = r[nb] + r[nb+1]; t[nb+1] = r[nb] - r[nb+1]`. -/
def stage2Block (r : ℕ → ℂ) (nb : ℕ) (t : ℕ → ℂ) : ℕ → ℂ :=
  Function.update (Function.update t nb (r nb + r (nb + 1))) (nb + 1) (r nb - r (nb + 1))

/-- One iteration (index `j`) of the inner butterfly loop of the worker for
the block starting at `nb`:
`w_n := r[idx2] * factors[blocks*j]; t[idx] = r[idx] + w_n; t[idx2] = r[idx] - w_n`. -/
def butterfly (blocks s_2 : ℕ) (factors : List ℂ) (r : ℕ → ℂ) (nb : ℕ)
    (t : ℕ → ℂ) (j : ℕ) : ℕ → ℂ :=
  let idx := j + nb
  let idx2 := idx + s_2
  let w_n := r idx2 * factors.getD (blocks * j) 0
  Function.update (Function.update t idx (r idx + w_n)) idx2 (r idx - w_n)

/-- The worker body for one block starting at `nb` (the Go source tests
`stage != 2` for the general branch; we test `stage = 2`, same split). -/
def blockWork (stage blocks s_2 : ℕ) (factors : List ℂ) (r : ℕ → ℂ)
    (t : ℕ → ℂ) (nb : ℕ) : ℕ → ℂ :=
  if stage = 2 then stage2Block r nb t
  else (List.range s_2).foldl (butterfly blocks s_2 factors r nb) t

/-- The block starts visited by `for nb := work.start; nb < work.end; nb += stage`
(on executed paths `start` and `fin` are multiples of `stage`). -/
def nbList (start fin stage : ℕ) : List ℕ :=
  List.range' start ((fin - start) / stage) stage

/-- One work item `{start, end}` processed by a worker. -/
def chunkWork (stage blocks s_2 : ℕ) (factors : List ℂ) (r : ℕ → ℂ)
    (t : ℕ → ℂ) (c : ℕ × ℕ) : ℕ → ℂ :=
  (nbList c.1 c.2 stage).foldl (blockWork stage blocks s_2 factors r) t

/-- The job-generation loop of one stage:
`for start, end := 0, stage; ; { if end-start >= idx_diff || end == lx {…} ; end += stage }`.
The Go loop terminates because `end` strictly increases up to `lx`; the
`fuel` argument bounds the iteration count (`lx + 1` suffices, see
`jobsLoop_flat`), and the fuel-exhausted case is unreachable. -/
def jobsLoop (lx stage idx_diff : ℕ) : ℕ → ℕ → ℕ → List (ℕ × ℕ)
  | 0, _, _ => []
  | (fuel + 1), start, fin =>
      if idx_diff ≤ fin - start ∨ fin = lx then
        if fin = lx then [(start, fin)]
        else (start, fin) :: jobsLoop lx stage idx_diff fuel fin (fin + stage)
      else jobsLoop lx stage idx_diff fuel start (fin + stage)

/-- One full stage: generate the work items and run them (workers write
disjoint ranges, so their parallel execution equals this sequential fold). -/
def runStage (lx stage idx_diff : ℕ) (factors : List ℂ) (r t : ℕ → ℂ) : ℕ → ℂ :=
  (jobsLoop lx stage idx_diff (lx + 1) 0 stage).foldl
    (chunkWork stage (lx / stage) (stage / 2) factors r) t

/-- Go `reorderData`: allocate a zero slice and write `r[reverseBits(n, s)] = x[n]`
for each `n` (`List.set` models the slice store). -/
def reorderData (x : List ℂ) : List ℂ :=
  (List.range x.length).foldl
    (fun r n => r.set (reverseBits n (log2 x.length)) (x.getD n 0))
    (List.replicate x.length 0)

/-- Go `radix2FFT`.  The package globals `worker_pool_size` and
`runtime.GOMAXPROCS(0)` enter as the parameters `wps` and `gmp`
(`num_workers` resolution as in the source).  The stage loop
`for stage = 2; stage <= lx; stage <<= 1` runs `log2 lx` times with
`stage = 2^(p+1)` at iteration `p`; `r, t = t, r` is the ping-pong swap. -/
def radix2FFT (wps gmp : ℕ) (x : List ℂ) : List ℂ :=
  let lx := x.length
  let factors := getRadix2Factors lx
  let num_workers := if wps = 0 then gmp else wps
  let idx_diff0 := lx / num_workers
  let idx_diff := if idx_diff0 < 2 then 2 else idx_diff0
  let r0 : ℕ → ℂ := fun i => (reorderData x).getD i 0
  let t0 : ℕ → ℂ := fun _ => 0
  let fin := (List.range (log2 lx)).foldl
      (fun rt p => (runStage lx (2 ^ (p + 1)) idx_diff factors rt.1 rt.2, rt.1))
      (r0, t0)
  List.ofFn fun i : Fin (lx) => fin.1 (i : ℕ)

/-! ## The facade: `FFT`, `IFFT`, `Convolve`, `bluesteinFFT` -/

/-- The input mirroring of Go `IFFT`:
`r[0] = x[0]; for i := 1; i < lx; i++ { r[i] = x[lx-i] }`. -/
def mirrorList (x : List ℂ) : List ℂ :=
  List.ofFn fun i : Fin (x.length) =>
    if (i : ℕ) = 0 then x.getD 0 0 else x.getD (x.length - (i : ℕ)) 0

/-- Go `IFFT` parameterized by the `FFT` it calls.  For an empty input the
Go code executes `r[0] = x[0]` on a zero-length slice and panics (`none`).
Otherwise: mirror the input, forward transform, scale by `1/lx`. -/
def IFFTvia (fft : List ℂ → List ℂ) (x : List ℂ) : Option (List ℂ) :=
  let lx := x.length
  if lx = 0 then none
  else some ((fft (mirrorList x)).map (fun c => c / (lx : ℂ)))

/-- Go `Convolve` parameterized by the `FFT` it calls: panics (`none`) on a
length mismatch, else the inverse transform of the elementwise product. -/
def Convolvevia (fft : List ℂ → List ℂ) (x y : List ℂ) : Option (List ℂ) :=
  if x.length ≠ y.length then none
  else
    let fft_x := fft x
    let fft_y := fft y
    let r := List.ofFn fun i : Fin (x.length) =>
      fft_x.getD (i : ℕ) 0 * fft_y.getD (i : ℕ) 0
    IFFTvia fft r

/-- Go `bluesteinFFT` parameterized by the `FFT` used inside `Convolve`.
`a` is the zero-padded input with its first `lx` entries overwritten by
`x[n]·invFactors[n]`; `b` holds the chirp symmetrically wrapped
(`b[i] = factors[i]`, `b[la-i] = factors[i]`; the two index families do not
collide because `la ≥ 2·lx - 1`).  The `Convolve` call provably returns
normally (equal lengths `la ≥ 1`), so the `.getD []` unwrap is never taken
on the `none` side; a Go panic there would have propagated. -/
def bluesteinFFT (fft : List ℂ → List ℂ) (x : List ℂ) : List ℂ :=
  let lx := x.length
  let a0 := ZeroPad x (NextPowerOf2 (lx * 2 - 1))
  let la := a0.length
  let factors := bluesteinFactors lx
  let invFactors := bluesteinInvFactors lx
  let a := List.ofFn fun n : Fin (la) =>
    if (n : ℕ) < lx then x.getD (n : ℕ) 0 * invFactors.getD (n : ℕ) 0
    else a0.getD (n : ℕ) 0
  let b := List.ofFn fun i : Fin (la) =>
    if (i : ℕ) < lx then factors.getD (i : ℕ) 0
    else if la - (i : ℕ) < lx then factors.getD (la - (i : ℕ)) 0 else 0
  let r := (Convolvevia fft a b).getD []
  let r2 := List.ofFn fun i : Fin (r.length) =>
    if (i : ℕ) < lx then r.getD (i : ℕ) 0 * invFactors.getD (i : ℕ) 0
    else r.getD (i : ℕ) 0
  r2.take lx

/-- Go `FFT`, stratified by call depth: `FFT` calls `bluesteinFFT`, which
calls `Convolve`/`IFFT`, which call `FFT` again — but only on power-of-two
lengths, which never recurse further.  Depth 2 therefore reproduces the Go
call graph exactly and the depth-0 fallback is unreachable (see
`FFTd_succ_eq` below). -/
def FFTd : ℕ → ℕ → ℕ → List ℂ → List ℂ
  | 0, _, _, x => x
  | (d + 1), wps, gmp, x =>
      let lx := x.length
      if lx ≤ 1 then x
      else if IsPowerOf2 lx then radix2FFT wps gmp x
      else bluesteinFFT (FFTd d wps gmp) x

/-- Go `FFT` (the two globals threaded as parameters). -/
def FFT (wps gmp : ℕ) (x : List ℂ) : List ℂ := FFTd 2 wps gmp x

/-- Go `IFFT`. -/
def IFFT (wps gmp : ℕ) (x : List ℂ) : Option (List ℂ) := IFFTvia (FFT wps gmp) x

/-- Go `Convolve`. -/
def Convolve (wps gmp : ℕ) (x y : List ℂ) : Option (List ℂ) :=
  Convolvevia (FFT wps gmp) x y

/-- Go `FFTReal`. -/
def FFTReal (wps gmp : ℕ) (x : List ℝ) : List ℂ := FFT wps gmp (ToComplex x)

/-- Go `IFFTReal`. -/
def IFFTReal (wps gmp : ℕ) (x : List ℝ) : Option (List ℂ) := IFFT wps gmp (ToComplex x)

end

/-- Go `SetWorkerPoolSize`: clamps negative arguments to `0` (the stored
`worker_pool_size`; `0` later resolves to `GOMAXPROCS`). -/
def SetWorkerPoolSize (n : ℤ) : ℕ := if n < 0 then 0 else n.toNat

/-! ## The 2-D wrappers -/

/-- Go `computeFFT2`, with `fftFunc` allowed to panic (`none`) as `IFFT`
does on an empty slice; a panic anywhere propagates.  The source panics on
`rows == 0` (`"empty input array"`) and on a ragged row
(`"ragged input array"`); otherwise it writes `fftFunc(column i)` down
column `i` and then maps `fftFunc` over the rows.  The column pass is
the gather form of the source's scatter writes `r[n][i] = v`
(out-of-range reads default to `0`, as the zeroed `r` rows do). -/
def computeFFT2 (x : List (List ℂ)) (fftFunc : List ℂ → Option (List ℂ)) :
    Option (List (List ℂ)) :=
  let rows := x.length
  if rows = 0 then none
  else
    let cols := (x.getD 0 []).length
    if x.all (fun row => row.length == cols) then do
      let colsT ← (List.range cols).mapM
        (fun i => fftFunc (List.ofFn fun j : Fin rows => (x.getD (j : ℕ) []).getD i 0))
      let r := List.ofFn fun j : Fin rows =>
        List.ofFn fun i : Fin cols => (colsT.getD (i : ℕ) []).getD (j : ℕ) 0
      r.mapM fftFunc
    else none

/-- Go `FFT2`. -/
noncomputable def FFT2 (wps gmp : ℕ) (x : List (List ℂ)) : Option (List (List ℂ)) :=
  computeFFT2 x (fun v => some (FFT wps gmp v))

/-- Go `IFFT2`. -/
noncomputable def IFFT2 (wps gmp : ℕ) (x : List (List ℂ)) : Option (List (List ℂ)) :=
  computeFFT2 x (IFFT wps gmp)

/-- Modelled from the spec: `dsputils.ToComplex2` is absent from `src/`
(only `ToComplex` is, which it lifts row-wise); §4.5: "`ForwardReal`/
`InverseReal` lift a real sequence to complex (imaginary part 0) first". -/
def ToComplex2 (x : List (List ℝ)) : List (List ℂ) := x.map ToComplex

/-- Go `FFT2Real`. -/
noncomputable def FFT2Real (wps gmp : ℕ) (x : List (List ℝ)) : Option (List (List ℂ)) :=
  FFT2 wps gmp (ToComplex2 x)

/-- Go `IFFT2Real`. -/
noncomputable def IFFT2Real (wps gmp : ℕ) (x : List (List ℝ)) : Option (List (List ℂ)) :=
  IFFT2 wps gmp (ToComplex2 x)

/-! ## Reference definition: the discrete Fourier transform -/

/-- The DFT (specification form): `X_k = Σ_n x_n e^{-2πikn/N}`. -/
noncomputable def dft (x : List ℂ) : List ℂ :=
  List.ofFn fun k : Fin (x.length) =>
    ∑ n ∈ Finset.range x.length, x.getD n 0 * omegaC x.length ^ ((k : ℕ) * n)

/-! ## List access helpers -/

theorem ofFn_getD {n : ℕ} (f : Fin n → ℂ) {i : ℕ} (h : i < n) :
    (List.ofFn f).getD i 0 = f ⟨i, h⟩ := by
  rw [List.getD_eq_getElem _ _ (by simpa using h), List.getElem_ofFn]

theorem getD_default {l : List ℂ} {i : ℕ} (h : l.length ≤ i) : l.getD i 0 = 0 := by
  rw [List.getD_eq_default]
  exact h

theorem foldl_flatMap {α β γ : Type} (g : γ → List α) (f : β → α → β)
    (l : List γ) (b : β) :
    (l.flatMap g).foldl f b = l.foldl (fun acc c => (g c).foldl f acc) b := by
  induction l generalizing b with
  | nil => rfl
  | cons c rest ih =>
      rw [List.flatMap_cons, List.foldl_append, List.foldl_cons, ih]

/-! ## `dft` basics -/

theorem dft_length (x : List ℂ) : (dft x).length = x.length := by
  simp [dft]

theorem dft_getD (x : List ℂ) {k : ℕ} (hk : k < x.length) :
    (dft x).getD k 0
      = ∑ n ∈ Finset.range x.length, x.getD n 0 * omegaC x.length ^ (k * n) := by
  unfold dft
  rw [ofFn_getD _ hk]

/-! ## `reorderData`: the bit-reversal permutation -/

section ReorderSpec

variable (f : ℕ → ℕ) (g : ℕ → ℂ)

theorem foldl_set_length (l : List ℕ) (acc : List ℂ) :
    (l.foldl (fun r n => r.set (f n) (g n)) acc).length = acc.length := by
  induction l generalizing acc with
  | nil => rfl
  | cons n rest ih => rw [List.foldl_cons, ih, List.length_set]

theorem foldl_set_untouched (l : List ℕ) (acc : List ℂ) (k : ℕ)
    (hk : ∀ n ∈ l, f n ≠ k) :
    (l.foldl (fun r n => r.set (f n) (g n)) acc).getD k 0 = acc.getD k 0 := by
  induction l generalizing acc with
  | nil => rfl
  | cons n rest ih =>
      rw [List.foldl_cons, ih _ (fun m hm => hk m (List.mem_cons_of_mem n hm))]
      rcases Nat.lt_or_ge k (acc.length) with h | h
      · rw [List.getD_eq_getElem _ _ (by simpa using h),
          List.getD_eq_getElem _ _ h,
          List.getElem_set_ne (hk n (List.mem_cons_self n rest))]
      · rw [getD_default (by simpa using h), getD_default h]

theorem foldl_set_written (l : List ℕ) (acc : List ℂ) (hnd : l.Nodup)
    (hinj : ∀ m ∈ l, ∀ n ∈ l, f m = f n → m = n) :
    ∀ n ∈ l, f n < acc.length →
      (l.foldl (fun r n => r.set (f n) (g n)) acc).getD (f n) 0 = g n := by
  induction l generalizing acc with
  | nil => intro n hn; exact absurd hn (List.not_mem_nil n)
  | cons m rest ih =>
      intro n hn hlt
      rw [List.foldl_cons]
      rcases List.mem_cons.mp hn with rfl | hn'
      · -- the head write survives: no later write hits the same slot
        have hne : ∀ p ∈ rest, f p ≠ f n := by
          intro p hp heq
          have : p = n := hinj p (List.mem_cons_of_mem _ hp) n hn heq
          subst this
          exact (List.nodup_cons.mp hnd).1 hp
        rw [foldl_set_untouched f g rest _ _ hne]
        have hlt' : f n < (acc.set (f n) (g n)).length := by
          rw [List.length_set]; exact hlt
        rw [List.getD_eq_getElem _ _ hlt', List.getElem_set_self]
      · exact ih _ ((List.nodup_cons.mp hnd).2) (fun a ha b hb => hinj a (List.mem_cons_of_mem _ ha)
          b (List.mem_cons_of_mem _ hb)) n hn' (by simpa using hlt)

end ReorderSpec

theorem reorderData_length (x : List ℂ) : (reorderData x).length = x.length := by
  unfold reorderData
  rw [foldl_set_length, List.length_replicate]

/-- Pointwise description of `reorderData` for power-of-two lengths:
entry `bitRev s n` holds `x[n]`, equivalently entry `k` holds `x[bitRev s k]`. -/
theorem reorderData_getD {s : ℕ} (x : List ℂ) (hx : x.length = 2 ^ s)
    {n : ℕ} (hn : n < x.length) :
    (reorderData x).getD (bitRev s n) 0 = x.getD n 0 := by
  unfold reorderData
  have hs : log2 x.length = s := by rw [hx, log2_two_pow]
  have hrev : ∀ m ∈ List.range x.length,
      reverseBits m (log2 x.length) = bitRev s m := by
    intro m hm
    rw [hs, reverseBits_eq_bitRev (by rw [← hx]; exact List.mem_range.mp hm)]
  have hinj : ∀ m ∈ List.range x.length, ∀ n ∈ List.range x.length,
      reverseBits m (log2 x.length) = reverseBits n (log2 x.length) → m = n := by
    intro a ha b hb heq
    rw [hrev a ha, hrev b hb] at heq
    exact bitRev_injOn (hx ▸ List.mem_range.mp ha) (hx ▸ List.mem_range.mp hb) heq
  have hlen : (fun m => reverseBits m (log2 x.length)) n < (List.replicate x.length (0 : ℂ)).length := by
    simp only [List.length_replicate]
    rw [hrev n (List.mem_range.mpr hn), hx]
    exact bitRev_lt (hx ▸ hn)
  have := foldl_set_written (fun m => reverseBits m (log2 x.length)) (fun m => x.getD m 0)
      (List.range x.length) (List.replicate x.length 0) (List.nodup_range _) hinj
      n (List.mem_range.mpr hn) hlen
  rw [← hrev n (List.mem_range.mpr hn)]
  exact this

theorem reorderData_getD' {s : ℕ} (x : List ℂ) (hx : x.length = 2 ^ s)
    {k : ℕ} (hk : k < x.length) :
    (reorderData x).getD k 0 = x.getD (bitRev s k) 0 := by
  have h1 : bitRev s k < x.length := by rw [hx]; exact bitRev_lt (hx ▸ hk)
  have := reorderData_getD x hx h1
  rwa [bitRev_bitRev (hx ▸ hk)] at this


/-! ## The radix-2 twiddle table equals the powers of `ω_L` -/

theorem cisR_eq (θ : ℝ) :
    cisR θ = (Real.cos θ : ℂ) + (Real.sin θ : ℂ) * Complex.I := by
  unfold cisR
  rw [Complex.exp_mul_I]
  simp [Complex.ofReal_cos, Complex.ofReal_sin]

theorem omegaC_pow_cisR (N n : ℕ) : omegaC N ^ n = cisR (-2 * Real.pi / N * n) := by
  unfold omegaC cisR
  rw [← Complex.exp_nat_mul]
  congr 1
  push_cast
  ring

theorem omegaC_four : omegaC 4 = -Complex.I := by
  have h : omegaC 4 = cisR (-(Real.pi / 2)) := by
    rw [omegaC_def]
    congr 1
    norm_num
    ring
  rw [h, cisR_eq]
  simp [Real.cos_pi_div_two, Real.sin_pi_div_two]

theorem radix2FactorsExp_length (m : ℕ) :
    (radix2FactorsExp m).length = 2 ^ (m + 2) := by
  cases m with
  | zero => rfl
  | succ n => simp [radix2FactorsExp]

theorem radix2FactorsExp_getD (m : ℕ) :
    ∀ k < 2 ^ (m + 2), (radix2FactorsExp m).getD k 0 = omegaC (2 ^ (m + 2)) ^ k := by
  induction m with
  | zero =>
      intro k hk
      have h4 : (2 : ℕ) ^ (0 + 2) = 4 := by norm_num
      rw [h4] at hk ⊢
      have hsq : omegaC 4 ^ 2 = -1 := by
        rw [pow_two, omegaC_four]
        simp [Complex.I_mul_I]
      interval_cases k
      · simp [radix2FactorsExp]
      · simp [radix2FactorsExp, omegaC_four]
      · show (-1 : ℂ) = omegaC 4 ^ 2
        rw [hsq]
      · show (Complex.I : ℂ) = omegaC 4 ^ 3
        rw [pow_succ, hsq, omegaC_four]
        simp
  | succ n ih =>
      intro k hk
      show (List.ofFn _).getD k 0 = _
      rw [ofFn_getD _ (by simpa [radix2FactorsExp_length] using hk)]
      simp only
      by_cases hpar : k % 2 = 0
      · rw [if_pos hpar]
        have hk2 : k / 2 < 2 ^ (n + 2) := by
          have : (2 : ℕ) ^ (n + 1 + 2) = 2 ^ (n + 2) * 2 := by ring
          omega
        rw [ih _ hk2]
        have hdbl : (2 : ℕ) ^ (n + 1 + 2) = 2 * 2 ^ (n + 2) := by ring
        have : omegaC (2 ^ (n + 1 + 2)) ^ k
            = (omegaC (2 * 2 ^ (n + 2)) ^ 2) ^ (k / 2) := by
          rw [← pow_mul, ← hdbl]
          congr 1
          omega
        rw [this, omegaC_double_sq _ Nat.one_le_two_pow]
      · rw [if_neg hpar]
        rw [omegaC_pow_cisR]

theorem IsPowerOf2_two_pow (e : ℕ) : IsPowerOf2 (2 ^ e) = true :=
  (IsPowerOf2_iff _ Nat.one_le_two_pow).mpr ⟨e, rfl⟩

theorem getRadix2Factors_pow2 (m : ℕ) :
    getRadix2Factors (2 ^ (m + 2)) = radix2FactorsExp m := by
  unfold getRadix2Factors
  rw [if_pos]
  · rw [log2_two_pow]
    norm_num
  · constructor
    · have : (2 : ℕ) ^ 2 ≤ 2 ^ (m + 2) := Nat.pow_le_pow_right (by omega) (by omega)
      simpa using this
    · exact IsPowerOf2_two_pow _

theorem getRadix2Factors_length_pow2 (e : ℕ) (he : 2 ≤ e) :
    (getRadix2Factors (2 ^ e)).length = 2 ^ e := by
  obtain ⟨m, rfl⟩ : ∃ m, e = m + 2 := ⟨e - 2, by omega⟩
  rw [getRadix2Factors_pow2, radix2FactorsExp_length]

theorem getRadix2Factors_getD_pow2 (e : ℕ) (he : 2 ≤ e) :
    ∀ k < 2 ^ e, (getRadix2Factors (2 ^ e)).getD k 0 = omegaC (2 ^ e) ^ k := by
  obtain ⟨m, rfl⟩ : ∃ m, e = m + 2 := ⟨e - 2, by omega⟩
  intro k hk
  rw [getRadix2Factors_pow2]
  exact radix2FactorsExp_getD m k hk

theorem getRadix2Factors_two : getRadix2Factors 2 = [] := by
  unfold getRadix2Factors
  rw [if_neg]
  omega

/-! ## Pointwise (gather) description of one butterfly stage

Each work item writes a set of `t`-slots disjoint from every other work
item's slots, and only reads `r`; the fold of all work items therefore has
the following pointwise description. -/

noncomputable section

/-- Value written into slot `idx` by the stage of size `stage` (`stageVal`
is the gather form of the scatter writes performed by the workers; `idx % stage`
is the offset `j` of the slot inside its block). -/
def stageVal (lx stage : ℕ) (factors : List ℂ) (r : ℕ → ℂ) (idx : ℕ) : ℂ :=
  if stage = 2 then
    (if idx % stage = 0 then r idx + r (idx + 1) else r (idx - 1) - r idx)
  else if idx % stage < stage / 2 then
    r idx + r (idx + stage / 2) * factors.getD ((lx / stage) * (idx % stage)) 0
  else
    r (idx - stage / 2) - r idx * factors.getD ((lx / stage) * (idx % stage - stage / 2)) 0

end

section StageEquiv

variable (blocks s_2 : ℕ) (factors : List ℂ) (r : ℕ → ℂ)

theorem butterfly_fold_spec (nb : ℕ) (hs2 : 1 ≤ s_2) :
    ∀ J ≤ s_2, ∀ (t : ℕ → ℂ) (i : ℕ),
      ((List.range J).foldl (butterfly blocks s_2 factors r nb) t) i =
        if nb ≤ i ∧ i < nb + J then
          r i + r (i + s_2) * factors.getD (blocks * (i - nb)) 0
        else if nb + s_2 ≤ i ∧ i < nb + s_2 + J then
          r (i - s_2) - r i * factors.getD (blocks * (i - s_2 - nb)) 0
        else t i := by
  have butterfly_apply : ∀ (t : ℕ → ℂ) (j : ℕ),
      butterfly blocks s_2 factors r nb t j
        = Function.update
            (Function.update t (j + nb)
              (r (j + nb) + r (j + nb + s_2) * factors.getD (blocks * j) 0))
            (j + nb + s_2)
            (r (j + nb) - r (j + nb + s_2) * factors.getD (blocks * j) 0) :=
    fun _ _ => rfl
  intro J
  induction J with
  | zero =>
      intro _ t i
      simp only [List.range_zero, List.foldl_nil]
      rw [if_neg (by omega), if_neg (by omega)]
  | succ J ih =>
      intro hJ t i
      rw [List.range_succ, List.foldl_append, List.foldl_cons, List.foldl_nil]
      have hJ' : J ≤ s_2 := by omega
      -- the last butterfly writes slots nb+J and nb+J+s_2 of the folded state
      rw [butterfly_apply]
      by_cases hi2 : i = J + nb + s_2
      · subst hi2
        rw [Function.update_same]
        rw [if_neg (by omega), if_pos (by omega)]
        have e1 : J + nb + s_2 - s_2 = J + nb := by omega
        rw [e1]
        have e2 : J + nb - nb = J := by omega
        rw [e2]
      · rw [Function.update_noteq hi2]
        by_cases hi1 : i = J + nb
        · subst hi1
          rw [Function.update_same]
          rw [if_pos (by omega)]
          have e1 : J + nb - nb = J := by omega
          rw [e1]
        · rw [Function.update_noteq hi1]
          rw [ih hJ' t i]
          -- outside both new slots the J-fold and (J+1)-fold descriptions agree
          by_cases ha : nb ≤ i ∧ i < nb + J
          · rw [if_pos ha, if_pos (by omega)]
          · rw [if_neg ha]
            by_cases hb : nb + s_2 ≤ i ∧ i < nb + s_2 + J
            · rw [if_pos hb, if_neg (by omega), if_pos (by omega)]
            · rw [if_neg hb, if_neg (by omega), if_neg (by omega)]

variable (lx stage : ℕ)

theorem stageVal_two (hst : stage = 2) (i : ℕ) (h : i % 2 = 0) :
    stageVal lx stage factors r i = r i + r (i + 1) := by
  subst hst
  unfold stageVal
  rw [if_pos rfl, if_pos h]

theorem stageVal_two' (hst : stage = 2) (i : ℕ) (h : i % 2 ≠ 0) :
    stageVal lx stage factors r i = r (i - 1) - r i := by
  subst hst
  unfold stageVal
  rw [if_pos rfl, if_neg h]

theorem stageVal_lo (hst : stage ≠ 2) (i : ℕ) (h : i % stage < stage / 2) :
    stageVal lx stage factors r i
      = r i + r (i + stage / 2) * factors.getD ((lx / stage) * (i % stage)) 0 := by
  unfold stageVal
  rw [if_neg hst, if_pos h]

theorem stageVal_hi (hst : stage ≠ 2) (i : ℕ) (h : ¬ i % stage < stage / 2) :
    stageVal lx stage factors r i
      = r (i - stage / 2)
        - r i * factors.getD ((lx / stage) * (i % stage - stage / 2)) 0 := by
  unfold stageVal
  rw [if_neg hst, if_neg h]

theorem blockWork_spec (h2 : 2 ≤ stage) (heven : stage % 2 = 0)
    {nb : ℕ} (hnb : stage ∣ nb) (t : ℕ → ℂ) (i : ℕ) :
    blockWork stage (lx / stage) (stage / 2) factors r t nb i =
      if nb ≤ i ∧ i < nb + stage then stageVal lx stage factors r i else t i := by
  have hmod : ∀ k, nb ≤ k → k < nb + stage → k % stage = k - nb := by
    intro k h1 h4
    obtain ⟨u, hu⟩ := hnb
    calc k % stage = (stage * u + (k - nb)) % stage := by rw [← show k = stage * u + (k - nb) by omega]
      _ = (k - nb) % stage := by rw [Nat.mul_add_mod]
      _ = k - nb := Nat.mod_eq_of_lt (by omega)
  unfold blockWork
  by_cases hst : stage = 2
  · rw [if_pos hst]
    unfold stage2Block
    have hnb2 : nb % 2 = 0 := by
      obtain ⟨u, hu⟩ := hnb
      rw [hst] at hu
      omega
    by_cases hi1 : i = nb + 1
    · subst hi1
      rw [Function.update_same, if_pos (by omega)]
      rw [stageVal_two' factors r lx stage hst (nb + 1) (by omega)]
      rw [show nb + 1 - 1 = nb by omega]
    · rw [Function.update_noteq hi1]
      by_cases hi0 : i = nb
      · subst hi0
        rw [Function.update_same, if_pos (by omega)]
        rw [stageVal_two factors r lx stage hst i (by omega)]
      · rw [Function.update_noteq hi0, if_neg (by omega)]
  · rw [if_neg hst]
    have hs2 : 1 ≤ stage / 2 := by omega
    rw [butterfly_fold_spec (lx / stage) (stage / 2) factors r nb hs2
      (stage / 2) (le_refl _) t i]
    by_cases ha : nb ≤ i ∧ i < nb + stage / 2
    · rw [if_pos ha, if_pos (by omega)]
      rw [stageVal_lo factors r lx stage hst i
        (by rw [hmod i (by omega) (by omega)]; omega)]
      rw [hmod i (by omega) (by omega)]
    · rw [if_neg ha]
      by_cases hb : nb + stage / 2 ≤ i ∧ i < nb + stage / 2 + stage / 2
      · rw [if_pos hb, if_pos (by omega)]
        rw [stageVal_hi factors r lx stage hst i
          (by rw [hmod i (by omega) (by omega)]; omega)]
        rw [hmod i (by omega) (by omega)]
        rw [show i - nb - stage / 2 = i - stage / 2 - nb by omega]
      · rw [if_neg hb, if_neg (by omega)]

theorem seqStage_spec (h2 : 2 ≤ stage) (heven : stage % 2 = 0) :
    ∀ (B : ℕ) (t : ℕ → ℂ) (i : ℕ),
      ((List.range' 0 B stage).foldl
        (blockWork stage (lx / stage) (stage / 2) factors r) t) i =
      if i < B * stage then stageVal lx stage factors r i else t i := by
  intro B
  induction B with
  | zero => intro t i; simp
  | succ B ih =>
      intro t i
      have happ : List.range' 0 (B + 1) stage
          = List.range' 0 B stage ++ [B * stage] := by
        have h := List.range'_append 0 B 1 stage
        rw [List.range'_one] at h
        rw [show 0 + stage * B = B * stage by ring] at h
        rw [show (1 + B) = B + 1 by ring] at h
        exact h.symm
      rw [happ, List.foldl_append, List.foldl_cons, List.foldl_nil]
      rw [blockWork_spec factors r lx stage h2 heven ⟨B, by ring⟩]
      have hBs : (B + 1) * stage = B * stage + stage := by ring
      by_cases hc : B * stage ≤ i ∧ i < B * stage + stage
      · rw [if_pos hc, if_pos (by omega)]
      · rw [if_neg hc, ih t i]
        by_cases hd : i < B * stage
        · rw [if_pos hd, if_pos (by omega)]
        · rw [if_neg hd, if_neg (by omega)]

theorem nbList_append {a b c : ℕ} (stge : ℕ) (h1 : stge ∣ a) (h2 : stge ∣ b)
    (h3 : stge ∣ c) (hab : a ≤ b) (hbc : b ≤ c) (hpos : 1 ≤ stge) :
    nbList a b stge ++ nbList b c stge = nbList a c stge := by
  unfold nbList
  obtain ⟨u, rfl⟩ := h1
  obtain ⟨v, rfl⟩ := h2
  obtain ⟨w, rfl⟩ := h3
  have huv : u ≤ v := Nat.le_of_mul_le_mul_left hab (by omega)
  have hvw : v ≤ w := Nat.le_of_mul_le_mul_left hbc (by omega)
  have e1 : (stge * v - stge * u) / stge = v - u := by
    rw [← Nat.mul_sub, Nat.mul_div_cancel_left _ (by omega)]
  have e2 : (stge * w - stge * v) / stge = w - v := by
    rw [← Nat.mul_sub, Nat.mul_div_cancel_left _ (by omega)]
  have e3 : (stge * w - stge * u) / stge = w - u := by
    rw [← Nat.mul_sub, Nat.mul_div_cancel_left _ (by omega)]
  rw [e1, e2, e3]
  have := List.range'_append (stge * u) (v - u) (w - v) stge
  have harg : stge * u + stge * (v - u) = stge * v := by
    rw [Nat.mul_sub]
    have : stge * u ≤ stge * v := Nat.mul_le_mul_left _ huv
    omega
  rw [harg] at this
  rw [this]
  congr 1
  omega

end StageEquiv

/-! ## The generated work items cover each stage exactly once

Flattening the work items produced by `jobsLoop` into their block starts
yields exactly the blocks of the whole stage — for every `idx_diff`, which
is why the worker-pool size cannot influence the result. -/

theorem jobsLoop_flat (lx stage idx_diff : ℕ) (hstage : 1 ≤ stage)
    (hdl : stage ∣ lx) :
    ∀ fuel start fin, stage ∣ start → stage ∣ fin → start < fin → fin ≤ lx →
      lx < fin + fuel * stage →
      (jobsLoop lx stage idx_diff fuel start fin).flatMap
        (fun c => nbList c.1 c.2 stage) = nbList start lx stage := by
  intro fuel
  induction fuel with
  | zero =>
      intro start fin _ _ _ h4 h5
      exact absurd h4 (by omega)
  | succ fuel ih =>
      intro start fin h1 h2 h3 h4 h5
      have hstep : ∀ g : ℕ, (g + 1) * stage = g * stage + stage := fun g => by ring
      rw [jobsLoop]
      by_cases hcond : idx_diff ≤ fin - start ∨ fin = lx
      · rw [if_pos hcond]
        by_cases hfin : fin = lx
        · rw [if_pos hfin]
          subst hfin
          rw [List.flatMap_cons, List.flatMap_nil, List.append_nil]
        · rw [if_neg hfin]
          rw [List.flatMap_cons]
          have hfs : fin + stage ≤ lx := by
            obtain ⟨a, rfl⟩ := h2
            obtain ⟨b, rfl⟩ := hdl
            have hab : a < b := Nat.lt_of_mul_lt_mul_left
              (h4.lt_of_ne (fun hcon => hfin hcon))
            calc stage * a + stage = stage * (a + 1) := by ring
              _ ≤ stage * b := Nat.mul_le_mul_left _ (by omega)
          rw [ih fin (fin + stage) h2 (Dvd.dvd.add h2 (dvd_refl stage))
            (by omega) hfs (by rw [hstep fuel] at h5; omega)]
          exact nbList_append stage h1 h2 hdl (le_of_lt h3) (by omega) hstage
      · rw [if_neg hcond]
        have hfin : fin ≠ lx := fun h => hcond (Or.inr h)
        have hfs : fin + stage ≤ lx := by
          obtain ⟨a, rfl⟩ := h2
          obtain ⟨b, rfl⟩ := hdl
          have hab : a < b := Nat.lt_of_mul_lt_mul_left (lt_of_le_of_ne h4 hfin)
          calc stage * a + stage = stage * (a + 1) := by ring
            _ ≤ stage * b := Nat.mul_le_mul_left _ (by omega)
        exact ih start (fin + stage) h1 (Dvd.dvd.add h2 (dvd_refl stage))
          (by omega) hfs (by rw [hstep fuel] at h5; omega)

theorem runStage_eq_flat (lx stage idx_diff : ℕ) (factors : List ℂ)
    (r t : ℕ → ℂ) :
    runStage lx stage idx_diff factors r t
      = ((jobsLoop lx stage idx_diff (lx + 1) 0 stage).flatMap
          (fun c => nbList c.1 c.2 stage)).foldl
        (blockWork stage (lx / stage) (stage / 2) factors r) t := by
  rw [foldl_flatMap]
  rfl

/-- Pointwise description of one full stage, for every `idx_diff`
(i.e. for every worker-pool size). -/
theorem runStage_spec (lx stage idx_diff : ℕ) (factors : List ℂ)
    (r t : ℕ → ℂ) (h2 : 2 ≤ stage) (heven : stage % 2 = 0) (hdl : stage ∣ lx)
    (hle : stage ≤ lx) (i : ℕ) :
    runStage lx stage idx_diff factors r t i
      = if i < lx then stageVal lx stage factors r i else t i := by
  rw [runStage_eq_flat]
  have hlin : (lx + 1) * stage = lx * stage + stage := by ring
  have hlx : lx ≤ lx * stage := Nat.le_mul_of_pos_right lx (by omega)
  rw [jobsLoop_flat lx stage idx_diff (by omega) hdl (lx + 1) 0 stage
    (dvd_zero stage) (dvd_refl stage) (by omega) hle (by omega)]
  show ((List.range' 0 ((lx - 0) / stage) stage).foldl
      (blockWork stage (lx / stage) (stage / 2) factors r) t) i = _
  rw [Nat.sub_zero]
  rw [seqStage_spec factors r lx stage h2 heven (lx / stage) t i]
  rw [Nat.div_mul_cancel hdl]

/-! ## Helpers for the decimation-in-time argument -/

theorem sum_range_even_odd (f : ℕ → ℂ) (n : ℕ) :
    ∑ i ∈ Finset.range (2 * n), f i
      = (∑ m ∈ Finset.range n, f (2 * m)) + ∑ m ∈ Finset.range n, f (2 * m + 1) := by
  induction n with
  | zero => simp
  | succ n ih =>
      have h2 : 2 * (n + 1) = (2 * n) + 1 + 1 := by ring
      rw [h2, Finset.sum_range_succ, Finset.sum_range_succ,
        Finset.sum_range_succ (fun m => f (2 * m)),
        Finset.sum_range_succ (fun m => f (2 * m + 1)), ih]
      ring

theorem omegaC_mul_pow {a b : ℕ} (ha : 1 ≤ a) (hb : 1 ≤ b) :
    omegaC (a * b) ^ a = omegaC b := by
  unfold omegaC
  rw [← Complex.exp_nat_mul]
  congr 1
  have hb0 : (b : ℂ) ≠ 0 := by exact_mod_cast (by omega : b ≠ 0)
  have ha0 : (a : ℂ) ≠ 0 := by exact_mod_cast (by omega : a ≠ 0)
  push_cast
  field_simp
  ring

/-- The per-stage state sequence after the bit-reversal reorder:
`stageStack p` is the buffer contents after the stages of sizes
`2, 4, …, 2^p`. -/
noncomputable def stageStack (lx : ℕ) (factors : List ℂ) (r0 : ℕ → ℂ) : ℕ → (ℕ → ℂ)
  | 0 => r0
  | (p + 1) => stageVal lx (2 ^ (p + 1)) factors (stageStack lx factors r0 p)

/-- `stageVal` reads `r` only below `lx`. -/
theorem stageVal_congr (lx stage : ℕ) (factors : List ℂ) (r r' : ℕ → ℂ)
    (h2 : 2 ≤ stage) (heven : stage % 2 = 0) (hdl : stage ∣ lx)
    (hagree : ∀ k < lx, r k = r' k) {i : ℕ} (hi : i < lx) :
    stageVal lx stage factors r i = stageVal lx stage factors r' i := by
  have hdl' := hdl
  obtain ⟨bb, hbb⟩ := hdl
  have hdm := Nat.div_add_mod i stage
  have hjlt : i % stage < stage := Nat.mod_lt _ (by omega)
  have hblock : stage * (i / stage) + stage ≤ lx := by
    have hdiv : i / stage < bb := by
      apply Nat.div_lt_of_lt_mul
      omega
    calc stage * (i / stage) + stage = stage * (i / stage + 1) := by ring
      _ ≤ stage * bb := Nat.mul_le_mul_left _ (by omega)
      _ = lx := hbb.symm
  have hup : i % stage < stage / 2 → i + stage / 2 < lx := by
    intro h
    omega
  have hdown : i - stage / 2 < lx := by omega
  have hnext : stage = 2 → i % 2 = 0 → i + 1 < lx := by
    intro h1 h2x
    have hdvd2 : (2 : ℕ) ∣ lx := h1 ▸ hdl'
    omega
  unfold stageVal
  by_cases hst : stage = 2
  · rw [if_pos hst, if_pos hst]
    have hnx := hnext hst
    subst hst
    by_cases hj : i % 2 = 0
    · rw [if_pos hj, if_pos hj, hagree i hi, hagree (i + 1) (hnx hj)]
    · rw [if_neg hj, if_neg hj, hagree (i - 1) (by omega), hagree i hi]
  · rw [if_neg hst, if_neg hst]
    by_cases hj : i % stage < stage / 2
    · rw [if_pos hj, if_pos hj, hagree i hi, hagree (i + stage / 2) (hup hj)]
    · rw [if_neg hj, if_neg hj, hagree (i - stage / 2) hdown, hagree i hi]

theorem bitRev_even (k b : ℕ) : bitRev (k + 1) (2 * b) = bitRev k b := by
  show bitRev k (2 * b / 2) + (2 * b % 2) * 2 ^ k = bitRev k b
  rw [Nat.mul_div_cancel_left _ (by omega), Nat.mul_mod_right]
  ring

theorem bitRev_odd (k b : ℕ) : bitRev (k + 1) (2 * b + 1) = bitRev k b + 2 ^ k := by
  show bitRev k ((2 * b + 1) / 2) + ((2 * b + 1) % 2) * 2 ^ k = bitRev k b + 2 ^ k
  have h1 : (2 * b + 1) / 2 = b := by omega
  have h2 : (2 * b + 1) % 2 = 1 := by omega
  rw [h1, h2]
  ring

/-- Decimation-in-time split of a `2P`-point sum into its two `P`-point
halves (the twiddle exponent is `j`). -/
theorem dit_split (g : ℕ → ℂ) (P K j b : ℕ) (hP : 1 ≤ P) :
    ∑ m ∈ Finset.range (2 * P),
        g (m * 2 ^ K + bitRev K b) * omegaC (2 * P) ^ (j * m)
      = (∑ m ∈ Finset.range P,
          g (m * 2 ^ (K + 1) + bitRev (K + 1) (2 * b)) * omegaC P ^ (j * m))
        + omegaC (2 * P) ^ j *
          ∑ m ∈ Finset.range P,
            g (m * 2 ^ (K + 1) + bitRev (K + 1) (2 * b + 1)) * omegaC P ^ (j * m) := by
  rw [sum_range_even_odd, Finset.mul_sum]
  congr 1
  · apply Finset.sum_congr rfl
    intro m _
    rw [bitRev_even]
    have hidx : 2 * m * 2 ^ K + bitRev K b = m * 2 ^ (K + 1) + bitRev K b := by
      rw [pow_succ]; ring
    rw [hidx]
    congr 1
    rw [show j * (2 * m) = 2 * (j * m) by ring, pow_mul,
      omegaC_double_sq P hP]
  · apply Finset.sum_congr rfl
    intro m _
    rw [bitRev_odd]
    have hidx : (2 * m + 1) * 2 ^ K + bitRev K b
        = m * 2 ^ (K + 1) + (bitRev K b + 2 ^ K) := by
      rw [pow_succ]; ring
    rw [hidx]
    have hexp : j * (2 * m + 1) = 2 * (j * m) + j := by ring
    rw [hexp, pow_add (omegaC (2 * P)) (2 * (j * m)) j,
      pow_mul (omegaC (2 * P)) 2 (j * m), omegaC_double_sq P hP]
    ring

/-- Decimation-in-time split for the upper half of the outputs (twiddle
exponent `P + j`): the odd half enters with sign `-1`. -/
theorem dit_split' (g : ℕ → ℂ) (P K j b : ℕ) (hP : 1 ≤ P) :
    ∑ m ∈ Finset.range (2 * P),
        g (m * 2 ^ K + bitRev K b) * omegaC (2 * P) ^ ((P + j) * m)
      = (∑ m ∈ Finset.range P,
          g (m * 2 ^ (K + 1) + bitRev (K + 1) (2 * b)) * omegaC P ^ (j * m))
        - omegaC (2 * P) ^ j *
          ∑ m ∈ Finset.range P,
            g (m * 2 ^ (K + 1) + bitRev (K + 1) (2 * b + 1)) * omegaC P ^ (j * m) := by
  rw [sum_range_even_odd, Finset.mul_sum, sub_eq_add_neg, ← Finset.sum_neg_distrib]
  congr 1
  · apply Finset.sum_congr rfl
    intro m _
    rw [bitRev_even]
    have hidx : 2 * m * 2 ^ K + bitRev K b = m * 2 ^ (K + 1) + bitRev K b := by
      rw [pow_succ]; ring
    rw [hidx]
    congr 1
    have hexp : (P + j) * (2 * m) = (2 * P) * m + 2 * (j * m) := by ring
    rw [hexp, pow_add, pow_mul (omegaC (2 * P)) (2 * P) m,
      @omegaC_pow_self (2 * P) (by omega), one_pow, one_mul,
      pow_mul, omegaC_double_sq P hP]
  · apply Finset.sum_congr rfl
    intro m _
    rw [bitRev_odd]
    have hidx : (2 * m + 1) * 2 ^ K + bitRev K b
        = m * 2 ^ (K + 1) + (bitRev K b + 2 ^ K) := by
      rw [pow_succ]; ring
    rw [hidx]
    have hexp : (P + j) * (2 * m + 1) = ((2 * P) * m + 2 * (j * m)) + (P + j) := by
      ring
    rw [hexp,
      pow_add (omegaC (2 * P)) (2 * P * m + 2 * (j * m)) (P + j),
      pow_add (omegaC (2 * P)) (2 * P * m) (2 * (j * m)),
      pow_mul (omegaC (2 * P)) (2 * P) m,
      @omegaC_pow_self (2 * P) (by omega), one_pow, one_mul,
      pow_mul (omegaC (2 * P)) 2 (j * m), omegaC_double_sq P hP,
      pow_add (omegaC (2 * P)) P j, omegaC_double_pow P hP]
    ring

/-- The decimation-in-time invariant: after the stages of sizes up to `2^p`,
each length-`2^p` block `b` of the buffer holds the `2^p`-point DFT of the
input decimated to the residue `bitRev (s-p) b` modulo `2^(s-p)`. -/
theorem stageStack_dft (s : ℕ) (x : List ℂ) (hx : x.length = 2 ^ s) :
    ∀ p, p ≤ s → ∀ i, i < 2 ^ s →
      stageStack (2 ^ s) (getRadix2Factors (2 ^ s))
          (fun k => (reorderData x).getD k 0) p i
        = ∑ m ∈ Finset.range (2 ^ p),
            x.getD (m * 2 ^ (s - p) + bitRev (s - p) (i / 2 ^ p)) 0
              * omegaC (2 ^ p) ^ ((i % 2 ^ p) * m) := by
  intro p
  induction p with
  | zero =>
      intro _ i hi
      show (reorderData x).getD i 0 = _
      rw [reorderData_getD' x hx (by omega : i < x.length)]
      rw [show (2 : ℕ) ^ 0 = 1 from rfl, Finset.sum_range_one]
      norm_num
  | succ p ih =>
      intro hps i hi
      have hp : p < s := by omega
      have hPpos : 1 ≤ (2 : ℕ) ^ p := Nat.one_le_two_pow
      have hstage : (2 : ℕ) ^ (p + 1) = 2 * 2 ^ p := by ring
      have hstpos : 1 ≤ (2 : ℕ) ^ (p + 1) := Nat.one_le_two_pow
      have hlx : (2 : ℕ) ^ s = 2 ^ (p + 1) * 2 ^ (s - p - 1) := by
        rw [← pow_add]; congr 1; omega
      have hdm := Nat.div_add_mod i (2 ^ (p + 1))
      have hjlt : i % 2 ^ (p + 1) < 2 ^ (p + 1) := Nat.mod_lt _ (by omega)
      have hblock : 2 ^ (p + 1) * (i / 2 ^ (p + 1)) + 2 ^ (p + 1) ≤ 2 ^ s := by
        have hdiv : i / 2 ^ (p + 1) < 2 ^ (s - p - 1) := by
          apply Nat.div_lt_of_lt_mul
          rw [← hlx]
          exact hi
        calc 2 ^ (p + 1) * (i / 2 ^ (p + 1)) + 2 ^ (p + 1)
            = 2 ^ (p + 1) * (i / 2 ^ (p + 1) + 1) := by ring
          _ ≤ 2 ^ (p + 1) * 2 ^ (s - p - 1) := Nat.mul_le_mul_left _ (by omega)
          _ = 2 ^ s := hlx.symm
      -- evaluation of the stored twiddle factors
      have hfactors : ∀ jj, jj < 2 ^ (p + 1) → 1 ≤ p →
          (getRadix2Factors (2 ^ s)).getD (2 ^ s / 2 ^ (p + 1) * jj) 0
            = omegaC (2 ^ (p + 1)) ^ jj := by
        intro jj hjj hp1
        have hs2 : 2 ≤ s := by omega
        rw [Nat.pow_div (by omega) (by omega)]
        have hidx : 2 ^ (s - (p + 1)) * jj < 2 ^ s := by
          calc 2 ^ (s - (p + 1)) * jj < 2 ^ (s - (p + 1)) * 2 ^ (p + 1) :=
                mul_lt_mul_of_pos_left hjj (by positivity)
            _ = 2 ^ s := by rw [← pow_add]; congr 1; omega
        rw [getRadix2Factors_getD_pow2 s hs2 _ hidx]
        rw [pow_mul]
        congr 1
        have hss : (2 : ℕ) ^ s = 2 ^ (s - (p + 1)) * 2 ^ (p + 1) := by
          rw [← pow_add]; congr 1; omega
        rw [hss, omegaC_mul_pow Nat.one_le_two_pow Nat.one_le_two_pow]
      have hbridge : 2 ^ (p + 1) * (i / 2 ^ (p + 1))
          = 2 ^ p * (2 * (i / 2 ^ (p + 1))) := by
        rw [hstage]; ring
      obtain ⟨K, hK⟩ : ∃ K, s - p = K + 1 := ⟨s - p - 1, by omega⟩
      have hK2 : s - (p + 1) = K := by omega
      by_cases hcase : i % 2 ^ (p + 1) < 2 ^ p
      · -- lower half of the block: t[idx] = r[idx] + w·r[idx + s_2]
        have hiP : i = i % 2 ^ (p + 1) + 2 ^ p * (2 * (i / 2 ^ (p + 1))) := by
          omega
        have hdivP : i / 2 ^ p = 2 * (i / 2 ^ (p + 1)) := by
          conv_lhs => rw [hiP]
          rw [Nat.add_mul_div_left _ _ (by omega), Nat.div_eq_of_lt hcase]
          omega
        have hmodP : i % 2 ^ p = i % 2 ^ (p + 1) := by
          conv_lhs => rw [hiP]
          rw [Nat.add_mul_mod_self_left, Nat.mod_eq_of_lt hcase]
        have hiP2 : i + 2 ^ p
            = i % 2 ^ (p + 1) + 2 ^ p * (2 * (i / 2 ^ (p + 1)) + 1) := by
          conv_lhs => rw [hiP]
          ring
        have hdivP2 : (i + 2 ^ p) / 2 ^ p = 2 * (i / 2 ^ (p + 1)) + 1 := by
          rw [hiP2, Nat.add_mul_div_left _ _ (by omega), Nat.div_eq_of_lt hcase]
          omega
        have hmodP2 : (i + 2 ^ p) % 2 ^ p = i % 2 ^ (p + 1) := by
          rw [hiP2, Nat.add_mul_mod_self_left, Nat.mod_eq_of_lt hcase]
        have hi2lt : i + 2 ^ p < 2 ^ s := by omega
        have hval : stageStack (2 ^ s) (getRadix2Factors (2 ^ s))
            (fun k => (reorderData x).getD k 0) (p + 1) i
            = stageStack (2 ^ s) (getRadix2Factors (2 ^ s))
                (fun k => (reorderData x).getD k 0) p i
              + stageStack (2 ^ s) (getRadix2Factors (2 ^ s))
                  (fun k => (reorderData x).getD k 0) p (i + 2 ^ p)
                * omegaC (2 ^ (p + 1)) ^ (i % 2 ^ (p + 1)) := by
          show stageVal (2 ^ s) (2 ^ (p + 1)) (getRadix2Factors (2 ^ s))
              (stageStack (2 ^ s) (getRadix2Factors (2 ^ s))
                (fun k => (reorderData x).getD k 0) p) i = _
          rcases Nat.eq_zero_or_pos p with hp0 | hp1
          · subst hp0
            have hj0 : i % 2 = 0 := by
              have hc := hcase
              norm_num at hc
              omega
            rw [stageVal_two (getRadix2Factors (2 ^ s))
              (stageStack (2 ^ s) (getRadix2Factors (2 ^ s))
                (fun k => (reorderData x).getD k 0) 0) (2 ^ s) (2 ^ (0 + 1))
              (by norm_num) i hj0]
            have hz : i % 2 ^ (0 + 1) = 0 := by
              norm_num
              omega
            rw [hz]
            norm_num
          · have hne2 : (2 : ℕ) ^ (p + 1) ≠ 2 := by
              have : (4 : ℕ) ≤ 2 ^ (p + 1) := by
                calc (4 : ℕ) = 2 ^ 2 := by norm_num
                  _ ≤ 2 ^ (p + 1) := Nat.pow_le_pow_right (by omega) (by omega)
              omega
            have hhalf : (2 : ℕ) ^ (p + 1) / 2 = 2 ^ p := by omega
            rw [stageVal_lo (getRadix2Factors (2 ^ s))
              (stageStack (2 ^ s) (getRadix2Factors (2 ^ s))
                (fun k => (reorderData x).getD k 0) p) (2 ^ s) (2 ^ (p + 1))
              hne2 i (by omega)]
            rw [hhalf, hfactors _ hjlt hp1]
        rw [hval, ih (by omega) i hi, ih (by omega) (i + 2 ^ p) hi2lt]
        rw [hdivP, hmodP, hdivP2, hmodP2, hK, hK2]
        rw [hstage]
        rw [dit_split (fun idx => x.getD idx 0) (2 ^ p) K
          (i % (2 * 2 ^ p)) (i / (2 * 2 ^ p)) hPpos]
        ring
      · -- upper half of the block: t[idx] = r[idx - s_2] - w·r[idx]
        have hbridge2 : 2 ^ p * (2 * (i / 2 ^ (p + 1)) + 1)
            = 2 ^ p * (2 * (i / 2 ^ (p + 1))) + 2 ^ p := by ring
        have hiP : i = (i % 2 ^ (p + 1) - 2 ^ p)
            + 2 ^ p * (2 * (i / 2 ^ (p + 1)) + 1) := by
          omega
        have hj'lt : i % 2 ^ (p + 1) - 2 ^ p < 2 ^ p := by omega
        have hdivP : i / 2 ^ p = 2 * (i / 2 ^ (p + 1)) + 1 := by
          conv_lhs => rw [hiP]
          rw [Nat.add_mul_div_left _ _ (by omega), Nat.div_eq_of_lt hj'lt]
          omega
        have hmodP : i % 2 ^ p = i % 2 ^ (p + 1) - 2 ^ p := by
          conv_lhs => rw [hiP]
          rw [Nat.add_mul_mod_self_left, Nat.mod_eq_of_lt hj'lt]
        have hiP2 : i - 2 ^ p
            = (i % 2 ^ (p + 1) - 2 ^ p) + 2 ^ p * (2 * (i / 2 ^ (p + 1))) := by
          omega
        have hdivP2 : (i - 2 ^ p) / 2 ^ p = 2 * (i / 2 ^ (p + 1)) := by
          rw [hiP2, Nat.add_mul_div_left _ _ (by omega), Nat.div_eq_of_lt hj'lt]
          omega
        have hmodP2 : (i - 2 ^ p) % 2 ^ p = i % 2 ^ (p + 1) - 2 ^ p := by
          rw [hiP2, Nat.add_mul_mod_self_left, Nat.mod_eq_of_lt hj'lt]
        have hi2lt : i - 2 ^ p < 2 ^ s := by omega
        have hval : stageStack (2 ^ s) (getRadix2Factors (2 ^ s))
            (fun k => (reorderData x).getD k 0) (p + 1) i
            = stageStack (2 ^ s) (getRadix2Factors (2 ^ s))
                (fun k => (reorderData x).getD k 0) p (i - 2 ^ p)
              - stageStack (2 ^ s) (getRadix2Factors (2 ^ s))
                  (fun k => (reorderData x).getD k 0) p i
                * omegaC (2 ^ (p + 1)) ^ (i % 2 ^ (p + 1) - 2 ^ p) := by
          show stageVal (2 ^ s) (2 ^ (p + 1)) (getRadix2Factors (2 ^ s))
              (stageStack (2 ^ s) (getRadix2Factors (2 ^ s))
                (fun k => (reorderData x).getD k 0) p) i = _
          rcases Nat.eq_zero_or_pos p with hp0 | hp1
          · subst hp0
            have hj1 : i % 2 ≠ 0 := by
              intro hcon
              apply hcase
              have h1 : i % 2 ^ (0 + 1) = i % 2 := by norm_num
              omega
            rw [stageVal_two' (getRadix2Factors (2 ^ s))
              (stageStack (2 ^ s) (getRadix2Factors (2 ^ s))
                (fun k => (reorderData x).getD k 0) 0) (2 ^ s) (2 ^ (0 + 1))
              (by norm_num) i hj1]
            have hj1' : i % 2 ^ (0 + 1) - 2 ^ 0 = 0 := by
              have h1 : i % 2 ^ (0 + 1) = i % 2 := by norm_num
              omega
            rw [hj1']
            norm_num
          · have hne2 : (2 : ℕ) ^ (p + 1) ≠ 2 := by
              have : (4 : ℕ) ≤ 2 ^ (p + 1) := by
                calc (4 : ℕ) = 2 ^ 2 := by norm_num
                  _ ≤ 2 ^ (p + 1) := Nat.pow_le_pow_right (by omega) (by omega)
              omega
            have hhalf : (2 : ℕ) ^ (p + 1) / 2 = 2 ^ p := by omega
            rw [stageVal_hi (getRadix2Factors (2 ^ s))
              (stageStack (2 ^ s) (getRadix2Factors (2 ^ s))
                (fun k => (reorderData x).getD k 0) p) (2 ^ s) (2 ^ (p + 1))
              hne2 i (by omega)]
            rw [hhalf, hfactors _ (by omega) hp1]
        rw [hval, ih (by omega) i hi, ih (by omega) (i - 2 ^ p) hi2lt]
        rw [hdivP, hmodP, hdivP2, hmodP2, hK, hK2]
        have hjsplit : i % 2 ^ (p + 1) = 2 ^ p + (i % 2 ^ (p + 1) - 2 ^ p) := by
          omega
        conv_rhs => rw [hjsplit]
        rw [hstage]
        rw [dit_split' (fun idx => x.getD idx 0) (2 ^ p) K
          (i % (2 * 2 ^ p) - 2 ^ p) (i / (2 * 2 ^ p)) hPpos]
        ring

/-- The stage loop of `radix2FFT` (with its ping-pong buffer swap) computes
`stageStack`: the scratch buffer's stale contents never matter because every
stage overwrites all `lx` slots. -/
theorem radix2Loop_spec (lx idx_diff s : ℕ) (factors : List ℂ)
    (r0 : ℕ → ℂ) (t0 : ℕ → ℂ) (hlx : lx = 2 ^ s) :
    ∀ q, q ≤ s → ∀ i, i < lx →
      ((List.range q).foldl
        (fun rt p => (runStage lx (2 ^ (p + 1)) idx_diff factors rt.1 rt.2, rt.1))
        (r0, t0)).1 i
        = stageStack lx factors r0 q i := by
  intro q
  induction q with
  | zero => intro _ i _; rfl
  | succ q ihq =>
      intro hq i hi
      rw [List.range_succ, List.foldl_append, List.foldl_cons, List.foldl_nil]
      have h2 : 2 ≤ (2 : ℕ) ^ (q + 1) := by
        calc (2 : ℕ) = 2 ^ 1 := by norm_num
          _ ≤ 2 ^ (q + 1) := Nat.pow_le_pow_right (by omega) (by omega)
      have heven : (2 : ℕ) ^ (q + 1) % 2 = 0 := by
        have : (2 : ℕ) ^ (q + 1) = 2 * 2 ^ q := by ring
        omega
      have hdvd : (2 : ℕ) ^ (q + 1) ∣ lx := by
        rw [hlx]
        exact pow_dvd_pow 2 (by omega)
      have hle : (2 : ℕ) ^ (q + 1) ≤ lx := by
        rw [hlx]
        exact Nat.pow_le_pow_right (by omega) (by omega)
      show runStage lx (2 ^ (q + 1)) idx_diff factors _ _ i = _
      rw [runStage_spec lx (2 ^ (q + 1)) idx_diff factors _ _ h2 heven hdvd hle i]
      rw [if_pos hi]
      show stageVal lx (2 ^ (q + 1)) factors _ i
        = stageVal lx (2 ^ (q + 1)) factors (stageStack lx factors r0 q) i
      exact stageVal_congr lx (2 ^ (q + 1)) factors _ _ h2 heven hdvd
        (fun k hk => ihq (by omega) k hk) hi

/-- Specialization of the invariant at the last stage, phrased through
`x.length`. -/
theorem stageStack_dft_final (s : ℕ) (x : List ℂ) (hx : x.length = 2 ^ s) :
    ∀ i < x.length,
      stageStack x.length (getRadix2Factors x.length)
          (fun k => (reorderData x).getD k 0) s i
        = ∑ n ∈ Finset.range x.length, x.getD n 0 * omegaC x.length ^ (i * n) := by
  intro i hi
  rw [hx] at hi ⊢
  rw [stageStack_dft s x hx s (le_refl s) i hi]
  apply Finset.sum_congr rfl
  intro m _
  have h1 : s - s = 0 := by omega
  have h2 : i / 2 ^ s = 0 := Nat.div_eq_of_lt hi
  have h3 : i % 2 ^ s = i := Nat.mod_eq_of_lt hi
  rw [h1, h2, h3, bitRev_zero_right]
  norm_num

/-- `radix2FFT` computes the DFT, for every worker-pool configuration. -/
theorem radix2FFT_eq_dft (wps gmp : ℕ) (x : List ℂ) (s : ℕ) (hs : 1 ≤ s)
    (hx : x.length = 2 ^ s) :
    radix2FFT wps gmp x = dft x := by
  unfold radix2FFT dft
  dsimp only
  apply congrArg
  funext i
  have hlog : log2 x.length = s := by rw [hx, log2_two_pow]
  rw [hlog]
  rw [radix2Loop_spec x.length _ s (getRadix2Factors x.length)
    (fun k => (reorderData x).getD k 0) (fun _ => 0) hx s (le_refl s) (i : ℕ)
    i.isLt]
  rw [stageStack_dft_final s x hx (i : ℕ) i.isLt]

/-! ## Fourier inversion for `dft` and the mirrored inverse -/

theorem mirrorList_length (x : List ℂ) : (mirrorList x).length = x.length := by
  simp [mirrorList]

theorem mirrorList_getD (x : List ℂ) {k : ℕ} (hk : k < x.length) :
    (mirrorList x).getD k 0 = x.getD ((x.length - k) % x.length) 0 := by
  unfold mirrorList
  rw [ofFn_getD _ hk]
  by_cases h0 : k = 0
  · subst h0
    rw [if_pos rfl, Nat.sub_zero, Nat.mod_self]
  · rw [if_neg h0]
    congr 1
    rw [Nat.mod_eq_of_lt (by omega)]

theorem phi_lt {N k : ℕ} (hN : 1 ≤ N) : (N - k) % N < N := Nat.mod_lt _ (by omega)

theorem phi_invol {N k : ℕ} (hk : k < N) : (N - (N - k) % N) % N = k := by
  rcases Nat.eq_zero_or_pos k with rfl | hpos
  · rw [Nat.sub_zero, Nat.mod_self, Nat.sub_zero, Nat.mod_self]
  · have hinner : (N - k) % N = N - k := Nat.mod_eq_of_lt (by omega)
    rw [hinner, show N - (N - k) = k by omega, Nat.mod_eq_of_lt hk]

/-- Reindexing a sum over `range N` along the involution `u ↦ (N-u) % N`. -/
theorem sum_mirror_reindex (g : ℕ → ℂ) (N : ℕ) (hN : 1 ≤ N) :
    ∑ n ∈ Finset.range N, g n = ∑ n ∈ Finset.range N, g ((N - n) % N) := by
  apply Finset.sum_nbij' (fun n => (N - n) % N) (fun n => (N - n) % N)
  · intro a ha
    exact Finset.mem_range.mpr (phi_lt hN)
  · intro a ha
    exact Finset.mem_range.mpr (phi_lt hN)
  · intro a ha
    exact phi_invol (Finset.mem_range.mp ha)
  · intro a ha
    exact phi_invol (Finset.mem_range.mp ha)
  · intro a ha
    rw [phi_invol (Finset.mem_range.mp ha)]

/-- The inner character sum of the inversion argument. -/
theorem key_sum (N : ℕ) (hN : 1 ≤ N) {k m : ℕ} (hk : k < N) (hm : m < N) :
    ∑ u ∈ Finset.range N, omegaC N ^ (m * u) * omegaC N ^ (k * ((N - u) % N))
      = if m = k then (N : ℂ) else 0 := by
  have hterm : ∀ u ∈ Finset.range N,
      omegaC N ^ (m * u) * omegaC N ^ (k * ((N - u) % N))
        = omegaC N ^ (((m : ℤ) - k) * u) := by
    intro u hu
    have hu' : u < N := Finset.mem_range.mp hu
    rcases Nat.eq_zero_or_pos u with rfl | hupos
    · simp [Nat.mod_self]
    · rw [Nat.mod_eq_of_lt (by omega)]
      have hcast1 : ((m * u : ℕ) : ℤ) = (m : ℤ) * u := by push_cast; ring
      have hcast2 : ((k * (N - u) : ℕ) : ℤ) = (k : ℤ) * ((N : ℤ) - u) := by
        push_cast [Nat.cast_sub (by omega : u ≤ N)]
        ring
      have h1 : omegaC N ^ (m * u) = omegaC N ^ ((m : ℤ) * u) := by
        rw [← hcast1, zpow_natCast]
      have h2 : omegaC N ^ (k * (N - u)) = omegaC N ^ ((k : ℤ) * ((N : ℤ) - u)) := by
        rw [← hcast2, zpow_natCast]
      have hsplit : (m : ℤ) * u + (k : ℤ) * ((N : ℤ) - u)
          = ((m : ℤ) - k) * u + (N : ℤ) * k := by ring
      rw [h1, h2, ← zpow_add₀ (omegaC_ne_zero N), hsplit,
        zpow_add₀ (omegaC_ne_zero N),
        zpow_mul (omegaC N) ((N : ℕ) : ℤ) ((k : ℕ) : ℤ),
        zpow_natCast (omegaC N) N, omegaC_pow_self hN, one_zpow, mul_one]
  rw [Finset.sum_congr rfl hterm]
  rw [omegaC_orthogonal hN ((m : ℤ) - k)]
  by_cases hmk : m = k
  · rw [if_pos hmk, if_pos (by rw [hmk]; simp)]
  · rw [if_neg ?_, if_neg hmk]
    intro hdvd
    obtain ⟨c, hc⟩ := hdvd
    have hb1 : (m : ℤ) - k < N := by omega
    have hb2 : -(N : ℤ) < (m : ℤ) - k := by omega
    have hc0 : c = 0 := by
      rcases lt_trichotomy c 0 with hcneg | hc0 | hcpos
      · nlinarith
      · exact hc0
      · nlinarith
    rw [hc0, mul_zero] at hc
    omega

theorem list_eq_of_getD (l1 l2 : List ℂ) (hlen : l1.length = l2.length)
    (h : ∀ i < l1.length, l1.getD i 0 = l2.getD i 0) : l1 = l2 := by
  apply List.ext_getElem hlen
  intro i h1 h2
  have hh := h i h1
  rwa [List.getD_eq_getElem _ _ h1, List.getD_eq_getElem _ _ h2] at hh

theorem getD_map_div (z : List ℂ) (c : ℂ) {n : ℕ} (hn : n < z.length) :
    (z.map (fun v => v / c)).getD n 0 = z.getD n 0 / c := by
  rw [List.getD_eq_getElem _ _ (by simpa using hn), List.getElem_map,
    List.getD_eq_getElem _ _ hn]

theorem dft_mirror_entry (z : List ℂ) (hN : 1 ≤ z.length) {k : ℕ}
    (hk : k < z.length) :
    (dft (mirrorList z)).getD k 0
      = ∑ u ∈ Finset.range z.length,
          z.getD u 0 * omegaC z.length ^ (k * ((z.length - u) % z.length)) := by
  have hlen : (mirrorList z).length = z.length := mirrorList_length z
  rw [dft_getD _ (by rw [hlen]; exact hk), hlen]
  rw [sum_mirror_reindex (fun n => (mirrorList z).getD n 0 * omegaC z.length ^ (k * n))
    z.length hN]
  apply Finset.sum_congr rfl
  intro u hu
  have hu' : u < z.length := Finset.mem_range.mp hu
  rw [mirrorList_getD z (phi_lt hN), phi_invol hu']

theorem dft_mirror_dft (x : List ℂ) (hN : 1 ≤ x.length) {k : ℕ}
    (hk : k < x.length) :
    (dft (mirrorList (dft x))).getD k 0 = (x.length : ℂ) * x.getD k 0 := by
  have hlen : (dft x).length = x.length := dft_length x
  rw [dft_mirror_entry (dft x) (by omega) (by rw [hlen]; exact hk)]
  rw [hlen]
  have hstep : ∀ u ∈ Finset.range x.length,
      (dft x).getD u 0 * omegaC x.length ^ (k * ((x.length - u) % x.length))
        = ∑ m ∈ Finset.range x.length,
            x.getD m 0 * (omegaC x.length ^ (m * u)
              * omegaC x.length ^ (k * ((x.length - u) % x.length))) := by
    intro u hu
    rw [dft_getD x (Finset.mem_range.mp hu), Finset.sum_mul]
    apply Finset.sum_congr rfl
    intro m _
    ring
  rw [Finset.sum_congr rfl hstep, Finset.sum_comm]
  have hinner : ∀ m ∈ Finset.range x.length,
      (∑ u ∈ Finset.range x.length,
        x.getD m 0 * (omegaC x.length ^ (m * u)
          * omegaC x.length ^ (k * ((x.length - u) % x.length))))
        = x.getD m 0 * (if m = k then (x.length : ℂ) else 0) := by
    intro m hm
    rw [← Finset.mul_sum, key_sum x.length hN hk (Finset.mem_range.mp hm)]
  rw [Finset.sum_congr rfl hinner]
  rw [Finset.sum_eq_single k]
  · rw [if_pos rfl]
    ring
  · intro m _ hm
    rw [if_neg hm, mul_zero]
  · intro hcon
    exact absurd (Finset.mem_range.mpr hk) hcon

theorem dft_dft_entry (z : List ℂ) (hN : 1 ≤ z.length) {k : ℕ}
    (hk : k < z.length) :
    (dft (dft z)).getD k 0
      = (z.length : ℂ) * z.getD ((z.length - k) % z.length) 0 := by
  have hlen : (dft z).length = z.length := dft_length z
  rw [dft_getD _ (by rw [hlen]; exact hk), hlen]
  have hstep : ∀ u ∈ Finset.range z.length,
      (dft z).getD u 0 * omegaC z.length ^ (k * u)
        = ∑ m ∈ Finset.range z.length,
            z.getD m 0 * omegaC z.length ^ (((m + k : ℕ) : ℤ) * u) := by
    intro u hu
    rw [dft_getD z (Finset.mem_range.mp hu), Finset.sum_mul]
    apply Finset.sum_congr rfl
    intro m _
    have hcast : omegaC z.length ^ (((m + k : ℕ) : ℤ) * u)
        = omegaC z.length ^ ((m + k) * u) := by
      rw [show (((m + k : ℕ) : ℤ) * u) = (((m + k) * u : ℕ) : ℤ) by push_cast; ring,
        zpow_natCast]
    rw [hcast, add_mul, pow_add]
    ring
  rw [Finset.sum_congr rfl hstep, Finset.sum_comm]
  have hinner : ∀ m ∈ Finset.range z.length,
      (∑ u ∈ Finset.range z.length,
        z.getD m 0 * omegaC z.length ^ (((m + k : ℕ) : ℤ) * u))
        = z.getD m 0 * (if m = (z.length - k) % z.length then (z.length : ℂ) else 0) := by
    intro m hm
    have hm' : m < z.length := Finset.mem_range.mp hm
    rw [← Finset.mul_sum, omegaC_orthogonal hN ((m + k : ℕ) : ℤ)]
    congr 1
    have hiff : ((z.length : ℤ) ∣ ((m + k : ℕ) : ℤ))
        ↔ m = (z.length - k) % z.length := by
      rw [Int.natCast_dvd_natCast]
      constructor
      · intro ⟨c, hc⟩
        have hc2 : c < 2 := by
          by_contra hcon
          have : 2 * z.length ≤ z.length * c := by
            calc 2 * z.length = z.length * 2 := by ring
              _ ≤ z.length * c := Nat.mul_le_mul_left _ (by omega)
          omega
        interval_cases c
        · rcases Nat.eq_zero_or_pos k with rfl | hkpos
          · simp at hc ⊢
            omega
          · omega
        · rcases Nat.eq_zero_or_pos k with rfl | hkpos
          · omega
          · rw [Nat.mod_eq_of_lt (by omega)]
            omega
      · intro hm0
        rcases Nat.eq_zero_or_pos k with rfl | hkpos
        · rw [Nat.sub_zero, Nat.mod_self] at hm0
          subst hm0
          simp
        · rw [Nat.mod_eq_of_lt (by omega)] at hm0
          subst hm0
          have : z.length - k + k = z.length := by omega
          rw [this]
    by_cases hdvd : ((z.length : ℤ) ∣ ((m + k : ℕ) : ℤ))
    · rw [if_pos hdvd, if_pos (hiff.mp hdvd)]
    · rw [if_neg hdvd, if_neg (fun h => hdvd (hiff.mpr h))]
  rw [Finset.sum_congr rfl hinner]
  rw [Finset.sum_eq_single ((z.length - k) % z.length)]
  · rw [if_pos rfl]
    ring
  · intro m _ hm
    rw [if_neg hm, mul_zero]
  · intro hcon
    exact absurd (Finset.mem_range.mpr (phi_lt hN)) hcon

/-! ## The circular-convolution theorem for `dft` -/

/-- Circular convolution (specification form):
`(a ⊛ b)[k] = Σ_m a[m] · b[(k - m) mod M]` with the difference taken
modulo `M = a.length`. -/
noncomputable def circConv (a b : List ℂ) : List ℂ :=
  List.ofFn fun k : Fin (a.length) =>
    ∑ m ∈ Finset.range a.length,
      a.getD m 0 * b.getD ((a.length + (k : ℕ) - m) % a.length) 0

theorem circConv_length (a b : List ℂ) : (circConv a b).length = a.length := by
  simp [circConv]

theorem circConv_getD (a b : List ℂ) {k : ℕ} (hk : k < a.length) :
    (circConv a b).getD k 0
      = ∑ m ∈ Finset.range a.length,
          a.getD m 0 * b.getD ((a.length + k - m) % a.length) 0 := by
  unfold circConv
  rw [ofFn_getD _ hk]

theorem sum_perm_shift (M m : ℕ) (hM : 1 ≤ M) (hm : m < M) (G : ℕ → ℂ) :
    ∑ k ∈ Finset.range M, G k = ∑ u ∈ Finset.range M, G ((u + m) % M) := by
  apply Finset.sum_nbij' (fun k => (M + k - m) % M) (fun u => (u + m) % M)
  · intro a _
    exact Finset.mem_range.mpr (Nat.mod_lt _ (by omega))
  · intro a _
    exact Finset.mem_range.mpr (Nat.mod_lt _ (by omega))
  · intro a ha
    have ha' : a < M := Finset.mem_range.mp ha
    rcases Nat.lt_or_ge (M + a - m) M with hc | hc
    · rw [Nat.mod_eq_of_lt hc]
      have he : M + a - m + m = a + M := by omega
      rw [he, Nat.add_mod_right]
      exact Nat.mod_eq_of_lt ha'
    · have h1 : (M + a - m) % M = a - m := by
        rw [Nat.mod_eq_sub_mod hc, Nat.mod_eq_of_lt (by omega)]
        omega
      rw [h1]
      have he : a - m + m = a := by omega
      rw [he, Nat.mod_eq_of_lt ha']
  · intro a ha
    have ha' : a < M := Finset.mem_range.mp ha
    rcases Nat.lt_or_ge (a + m) M with hc | hc
    · rw [Nat.mod_eq_of_lt hc, Nat.mod_eq_sub_mod (by omega),
        Nat.mod_eq_of_lt (by omega)]
      omega
    · have h1 : (a + m) % M = a + m - M := by
        rw [Nat.mod_eq_sub_mod hc, Nat.mod_eq_of_lt (by omega)]
      rw [h1, Nat.mod_eq_of_lt (by omega)]
      omega
  · intro a ha
    have ha' : a < M := Finset.mem_range.mp ha
    congr 1
    rcases Nat.lt_or_ge (M + a - m) M with hc | hc
    · rw [Nat.mod_eq_of_lt hc]
      have : M + a - m + m = a + M := by omega
      rw [this, Nat.add_mod_right]
      exact (Nat.mod_eq_of_lt ha').symm
    · have h1 : (M + a - m) % M = a - m := by
        rw [Nat.mod_eq_sub_mod hc, Nat.mod_eq_of_lt (by omega)]
        omega
      rw [h1]
      have : a - m + m = a := by omega
      rw [this, Nat.mod_eq_of_lt ha']

theorem omega_pow_mod (N : ℕ) (hN : 1 ≤ N) (j t : ℕ) :
    omegaC N ^ (j * (t % N)) = omegaC N ^ (j * t) := by
  conv_rhs => rw [show t = N * (t / N) + t % N from (Nat.div_add_mod t N).symm]
  rw [show j * (N * (t / N) + t % N) = (j * (t % N)) + N * (j * (t / N)) by ring]
  rw [pow_add, pow_mul (omegaC N) N (j * (t / N)), omegaC_pow_self hN,
    one_pow, mul_one]

theorem mod_shift_cancel {M u m : ℕ} (hu : u < M) (hm : m < M) :
    (M + (u + m) % M - m) % M = u := by
  rcases Nat.lt_or_ge (u + m) M with hc | hc
  · rw [Nat.mod_eq_of_lt hc, Nat.mod_eq_sub_mod (by omega),
      Nat.mod_eq_of_lt (by omega)]
    omega
  · have h1 : (u + m) % M = u + m - M := by
      rw [Nat.mod_eq_sub_mod hc, Nat.mod_eq_of_lt (by omega)]
    rw [h1, Nat.mod_eq_of_lt (by omega)]
    omega

theorem conv_dft_entry (a b : List ℂ) (hab : b.length = a.length)
    (hM : 1 ≤ a.length) {j : ℕ} (hj : j < a.length) :
    (dft (circConv a b)).getD j 0 = (dft a).getD j 0 * (dft b).getD j 0 := by
  have hcl : (circConv a b).length = a.length := circConv_length a b
  rw [dft_getD _ (by rw [hcl]; exact hj), hcl]
  have hstep : ∀ k ∈ Finset.range a.length,
      (circConv a b).getD k 0 * omegaC a.length ^ (j * k)
        = ∑ m ∈ Finset.range a.length,
            a.getD m 0
              * (b.getD ((a.length + k - m) % a.length) 0
                  * omegaC a.length ^ (j * k)) := by
    intro k hk
    rw [circConv_getD a b (Finset.mem_range.mp hk), Finset.sum_mul]
    apply Finset.sum_congr rfl
    intro m _
    ring
  rw [Finset.sum_congr rfl hstep, Finset.sum_comm]
  have hinner : ∀ m ∈ Finset.range a.length,
      (∑ k ∈ Finset.range a.length,
        a.getD m 0
          * (b.getD ((a.length + k - m) % a.length) 0
              * omegaC a.length ^ (j * k)))
        = a.getD m 0 * omegaC a.length ^ (j * m)
            * ∑ u ∈ Finset.range a.length,
                b.getD u 0 * omegaC a.length ^ (j * u) := by
    intro m hm
    have hm' : m < a.length := Finset.mem_range.mp hm
    rw [← Finset.mul_sum]
    rw [sum_perm_shift a.length m hM hm'
      (fun k => b.getD ((a.length + k - m) % a.length) 0
        * omegaC a.length ^ (j * k))]
    have hsum : (∑ u ∈ Finset.range a.length,
        b.getD ((a.length + (u + m) % a.length - m) % a.length) 0
          * omegaC a.length ^ (j * ((u + m) % a.length)))
        = omegaC a.length ^ (j * m)
          * ∑ u ∈ Finset.range a.length, b.getD u 0 * omegaC a.length ^ (j * u) := by
      rw [Finset.mul_sum]
      apply Finset.sum_congr rfl
      intro u hu
      have hu' : u < a.length := Finset.mem_range.mp hu
      rw [mod_shift_cancel hu' hm', omega_pow_mod a.length hM j (u + m),
        show j * (u + m) = j * m + j * u by ring, pow_add]
      ring
    rw [hsum]
    ring
  rw [Finset.sum_congr rfl hinner]
  rw [dft_getD a hj, dft_getD b (by rw [hab]; exact hj), hab]
  rw [Finset.sum_mul]

/-! ## The facade computes the DFT -/

theorem dft_short (x : List ℂ) (h : x.length ≤ 1) : dft x = x := by
  apply list_eq_of_getD _ _ (dft_length x)
  intro i hi
  rw [dft_length] at hi
  have hx1 : x.length = 1 := by omega
  have hi0 : i = 0 := by omega
  subst hi0
  rw [dft_getD x hi, hx1, Finset.sum_range_one]
  norm_num

theorem FFTd_eq_dft_pow2 (d wps gmp : ℕ) (x : List ℂ)
    (h : x.length ≤ 1 ∨ IsPowerOf2 x.length = true) :
    FFTd (d + 1) wps gmp x = dft x := by
  show (if x.length ≤ 1 then x
    else if IsPowerOf2 x.length then radix2FFT wps gmp x
    else bluesteinFFT (FFTd d wps gmp) x) = dft x
  by_cases h1 : x.length ≤ 1
  · rw [if_pos h1, dft_short x h1]
  · rcases h with h | h
    · exact absurd h h1
    · rw [if_neg h1, if_pos h]
      obtain ⟨s, hs⟩ := (IsPowerOf2_iff x.length (by omega)).mp h
      have hs1 : 1 ≤ s := by
        by_contra hcon
        have : s = 0 := by omega
        rw [this] at hs
        omega
      exact radix2FFT_eq_dft wps gmp x s hs1 hs

/-- `Convolve` on equal-length inputs is the circular convolution, provided
the `FFT` it calls computes the DFT at that length. -/
theorem Convolvevia_circ (fft : List ℂ → List ℂ) (a b : List ℂ)
    (hab : b.length = a.length) (hM : 1 ≤ a.length)
    (hfft : ∀ y : List ℂ, y.length = a.length → fft y = dft y) :
    Convolvevia fft a b = some (circConv a b) := by
  unfold Convolvevia
  rw [if_neg (by omega)]
  have hfa : fft a = dft a := hfft a rfl
  have hfb : fft b = dft b := hfft b hab
  have hr : (List.ofFn fun i : Fin (a.length) =>
      (fft a).getD (i : ℕ) 0 * (fft b).getD (i : ℕ) 0) = dft (circConv a b) := by
    apply list_eq_of_getD
    · simp [dft_length, circConv_length]
    · intro i hi
      have hi' : i < a.length := by simpa using hi
      rw [ofFn_getD _ hi']
      rw [hfa, hfb, conv_dft_entry a b hab hM hi']
  show IFFTvia fft (List.ofFn fun i : Fin (a.length) =>
    (fft a).getD (i : ℕ) 0 * (fft b).getD (i : ℕ) 0) = some (circConv a b)
  rw [hr]
  unfold IFFTvia
  have hlen : (dft (circConv a b)).length = a.length := by
    rw [dft_length, circConv_length]
  rw [if_neg (by rw [hlen]; omega)]
  congr 1
  have hmlen : (mirrorList (dft (circConv a b))).length = a.length := by
    rw [mirrorList_length, hlen]
  rw [hfft _ hmlen]
  apply list_eq_of_getD
  · rw [List.length_map, dft_length, hmlen, circConv_length]
  · intro i hi
    rw [List.length_map, dft_length, hmlen] at hi
    have hgd : i < (dft (mirrorList (dft (circConv a b)))).length := by
      rw [dft_length, hmlen]
      exact hi
    rw [getD_map_div _ _ (by rw [dft_length, hmlen]; exact hi)]
    have hcirc : (dft (mirrorList (dft (circConv a b)))).getD i 0
        = ((circConv a b).length : ℂ) * (circConv a b).getD i 0 := by
      apply dft_mirror_dft (circConv a b)
      · rw [circConv_length]; omega
      · rw [circConv_length]; exact hi
    rw [hcirc, hlen, circConv_length]
    have hne : ((a.length : ℂ)) ≠ 0 := by
      exact_mod_cast (by omega : a.length ≠ 0)
    field_simp

/-! ## Bluestein's chirp transform computes the DFT -/

theorem ZeroPad_length (x : List ℂ) (len : ℕ) (h : x.length ≤ len) :
    (ZeroPad x len).length = len := by
  unfold ZeroPad
  by_cases he : x.length = len
  · rw [if_pos he]; exact he
  · rw [if_neg he]
    rw [List.length_append, List.length_take, List.length_replicate]
    omega

theorem ZeroPad_getD_ge (x : List ℂ) (len : ℕ) (h : x.length ≤ len)
    {n : ℕ} (hn : x.length ≤ n) : (ZeroPad x len).getD n 0 = 0 := by
  unfold ZeroPad
  by_cases he : x.length = len
  · rw [if_pos he]
    exact getD_default hn
  · rw [if_neg he]
    rcases Nat.lt_or_ge n len with hlt | hge
    · rw [List.getD_eq_getElem _ _ (by
        rw [List.length_append, List.length_take, List.length_replicate]
        omega)]
      rw [List.getElem_append_right (by rw [List.length_take]; omega)]
      simp
    · apply getD_default
      rw [List.length_append, List.length_take, List.length_replicate]
      omega

theorem take_getD (l : List ℂ) (n : ℕ) {k : ℕ} (hk : k < n)
    (hl : k < l.length) : (l.take n).getD k 0 = l.getD k 0 := by
  rw [List.getD_eq_getElem _ _ (by rw [List.length_take]; omega),
    List.getElem_take, List.getD_eq_getElem _ _ hl]

theorem bluesteinFactors_length (L : ℕ) : (bluesteinFactors L).length = L := by
  simp [bluesteinFactors]

theorem bluesteinInvFactors_length (L : ℕ) : (bluesteinInvFactors L).length = L := by
  simp [bluesteinInvFactors]

theorem bluesteinFactors_getD (L : ℕ) {i : ℕ} (hi : i < L) :
    (bluesteinFactors L).getD i 0 = cisR (Real.pi / L * (i * i)) := by
  unfold bluesteinFactors
  rw [ofFn_getD _ hi]
  by_cases h0 : i = 0
  · subst h0
    rw [if_pos rfl]
    norm_num [cisR_zero]
  · rw [if_neg h0]

theorem bluesteinInvFactors_getD (L : ℕ) {i : ℕ} (hi : i < L) :
    (bluesteinInvFactors L).getD i 0 = cisR (-(Real.pi / L * (i * i))) := by
  unfold bluesteinInvFactors
  rw [ofFn_getD _ hi]
  by_cases h0 : i = 0
  · subst h0
    rw [if_pos rfl]
    norm_num [cisR_zero]
  · rw [if_neg h0]

/-- The chirp cancellation: `ic_k · (x_m · ic_m) · c_δ = x_m · ω_L^{km}`
whenever `δ² = (k-m)²`. -/
theorem chirp_term (L : ℕ) (hL : 1 ≤ L) (k m δ : ℕ)
    (hδ : ((δ : ℝ)) ^ 2 = ((k : ℝ) - m) ^ 2) :
    cisR (-(Real.pi / L * (k * k))) * cisR (-(Real.pi / L * (m * m)))
      * cisR (Real.pi / L * (δ * δ))
      = omegaC L ^ (k * m) := by
  rw [← cisR_add, ← cisR_add, omegaC_pow_cisR]
  congr 1
  have hδ' : (δ : ℝ) * δ = (k : ℝ) * k - 2 * k * m + m * m := by
    have h1 : ((δ : ℝ)) ^ 2 = (k : ℝ) ^ 2 - 2 * k * m + (m : ℝ) ^ 2 := by
      rw [hδ]; ring
    nlinarith [h1]
  push_cast
  linear_combination (Real.pi / (L : ℝ)) * hδ'

/-- `bluesteinFFT` computes the DFT whenever the transform it hands to
`Convolve` computes the DFT at the padded length `M = NextPowerOf2 (2L-1)`. -/
theorem bluesteinFFT_eq_dft (fft : List ℂ → List ℂ) (x : List ℂ)
    (hL : 1 ≤ x.length)
    (hfft : ∀ y : List ℂ, y.length = NextPowerOf2 (x.length * 2 - 1) →
      fft y = dft y) :
    bluesteinFFT fft x = dft x := by
  unfold bluesteinFFT
  dsimp only
  set P := NextPowerOf2 (x.length * 2 - 1) with hP
  set a0 := ZeroPad x P with ha0
  set A := List.ofFn (fun n : Fin (a0.length) =>
    if (n : ℕ) < x.length
      then x.getD (n : ℕ) 0 * (bluesteinInvFactors x.length).getD (n : ℕ) 0
      else a0.getD (n : ℕ) 0) with hA
  set B := List.ofFn (fun i : Fin (a0.length) =>
    if (i : ℕ) < x.length then (bluesteinFactors x.length).getD (i : ℕ) 0
    else if a0.length - (i : ℕ) < x.length
      then (bluesteinFactors x.length).getD (a0.length - (i : ℕ)) 0
      else 0) with hB
  set r := (Convolvevia fft A B).getD [] with hr
  have hPge : x.length * 2 - 1 ≤ P := le_NextPowerOf2 (by omega)
  have hxP : x.length ≤ P := by omega
  have hla : a0.length = P := by rw [ha0]; exact ZeroPad_length x P hxP
  have hAlen : A.length = P := by rw [hA, List.length_ofFn, hla]
  have hBlen : B.length = P := by rw [hB, List.length_ofFn, hla]
  have hab : B.length = A.length := by rw [hAlen, hBlen]
  have hA1 : 1 ≤ A.length := by rw [hAlen]; omega
  have hfft' : ∀ y : List ℂ, y.length = A.length → fft y = dft y := by
    intro y hy
    refine hfft y ?_
    rw [hy, hAlen]
  have hconv : Convolvevia fft A B = some (circConv A B) :=
    Convolvevia_circ fft A B hab hA1 hfft'
  have hrc : r = circConv A B := by rw [hr, hconv, Option.getD_some]
  have hrlen : r.length = P := by rw [hrc, circConv_length, hAlen]
  apply list_eq_of_getD
  · rw [List.length_take, List.length_ofFn, hrlen, dft_length]
    exact min_eq_left hxP
  · intro k hk
    rw [List.length_take, List.length_ofFn, hrlen, min_eq_left hxP] at hk
    rw [take_getD _ _ hk (by rw [List.length_ofFn, hrlen]; omega),
      ofFn_getD _ (by rw [hrlen]; omega), if_pos hk]
    show r.getD k 0 * (bluesteinInvFactors x.length).getD k 0 = (dft x).getD k 0
    rw [hrc, circConv_getD A B (by rw [hAlen]; omega), hAlen]
    have hrestrict :
        (∑ m ∈ Finset.range P, A.getD m 0 * B.getD ((P + k - m) % P) 0)
          = ∑ m ∈ Finset.range x.length,
              A.getD m 0 * B.getD ((P + k - m) % P) 0 := by
      refine (Finset.sum_subset (Finset.range_subset.mpr hxP) ?_).symm
      intro m hmP hmx
      have hm1 : m < P := Finset.mem_range.mp hmP
      have hm2 : x.length ≤ m := by
        by_contra hcon
        exact hmx (Finset.mem_range.mpr (by omega))
      have hA0 : A.getD m 0 = 0 := by
        rw [hA, ofFn_getD _ (by rw [hla]; exact hm1)]
        show (if m < x.length
          then x.getD m 0 * (bluesteinInvFactors x.length).getD m 0
          else a0.getD m 0) = 0
        rw [if_neg (by omega), ha0]
        exact ZeroPad_getD_ge x P hxP hm2
      rw [hA0, zero_mul]
    have hterm : ∀ m ∈ Finset.range x.length,
        A.getD m 0 * B.getD ((P + k - m) % P) 0
            * (bluesteinInvFactors x.length).getD k 0
          = x.getD m 0 * omegaC x.length ^ (k * m) := by
      intro m hm
      have hmx : m < x.length := Finset.mem_range.mp hm
      have hAm : A.getD m 0
          = x.getD m 0 * cisR (-(Real.pi / x.length * (m * m))) := by
        rw [hA, ofFn_getD _ (by rw [hla]; omega)]
        show (if m < x.length
          then x.getD m 0 * (bluesteinInvFactors x.length).getD m 0
          else a0.getD m 0)
          = x.getD m 0 * cisR (-(Real.pi / x.length * (m * m)))
        rw [if_pos hmx, bluesteinInvFactors_getD x.length hmx]
      have hick : (bluesteinInvFactors x.length).getD k 0
          = cisR (-(Real.pi / x.length * (k * k))) :=
        bluesteinInvFactors_getD x.length hk
      rcases Nat.lt_or_ge k m with hkm | hmk
      · have hidx : (P + k - m) % P = P + k - m :=
          Nat.mod_eq_of_lt (by omega)
        have hBv : B.getD ((P + k - m) % P) 0
            = cisR (Real.pi / x.length * (((m - k : ℕ) : ℝ) * ((m - k : ℕ) : ℝ))) := by
          rw [hidx, hB, ofFn_getD _ (by rw [hla]; omega)]
          show (if P + k - m < x.length
            then (bluesteinFactors x.length).getD (P + k - m) 0
            else if a0.length - (P + k - m) < x.length
              then (bluesteinFactors x.length).getD (a0.length - (P + k - m)) 0
              else 0)
            = cisR (Real.pi / x.length * (((m - k : ℕ) : ℝ) * ((m - k : ℕ) : ℝ)))
          rw [if_neg (by omega), hla]
          have hd : P - (P + k - m) = m - k := by omega
          rw [hd, if_pos (by omega), bluesteinFactors_getD x.length (by omega)]
        rw [hAm, hBv, hick]
        have hc := chirp_term x.length hL k m (m - k)
          (by rw [Nat.cast_sub (Nat.le_of_lt hkm)]; ring)
        calc x.getD m 0 * cisR (-(Real.pi / x.length * (m * m)))
              * cisR (Real.pi / x.length * (((m - k : ℕ) : ℝ) * ((m - k : ℕ) : ℝ)))
              * cisR (-(Real.pi / x.length * (k * k)))
            = x.getD m 0 * (cisR (-(Real.pi / x.length * (k * k)))
                * cisR (-(Real.pi / x.length * (m * m)))
                * cisR (Real.pi / x.length * (((m - k : ℕ) : ℝ) * ((m - k : ℕ) : ℝ)))) := by ring
          _ = x.getD m 0 * omegaC x.length ^ (k * m) := by rw [hc]
      · have hidx : (P + k - m) % P = k - m := by
          have h1 : P + k - m = (k - m) + P := by omega
          rw [h1, Nat.add_mod_right, Nat.mod_eq_of_lt (by omega)]
        have hBv : B.getD ((P + k - m) % P) 0
            = cisR (Real.pi / x.length * (((k - m : ℕ) : ℝ) * ((k - m : ℕ) : ℝ))) := by
          rw [hidx, hB, ofFn_getD _ (by rw [hla]; omega)]
          show (if k - m < x.length
            then (bluesteinFactors x.length).getD (k - m) 0
            else if a0.length - (k - m) < x.length
              then (bluesteinFactors x.length).getD (a0.length - (k - m)) 0
              else 0)
            = cisR (Real.pi / x.length * (((k - m : ℕ) : ℝ) * ((k - m : ℕ) : ℝ)))
          rw [if_pos (by omega), bluesteinFactors_getD x.length (by omega)]
        rw [hAm, hBv, hick]
        have hc := chirp_term x.length hL k m (k - m)
          (by rw [Nat.cast_sub hmk])
        calc x.getD m 0 * cisR (-(Real.pi / x.length * (m * m)))
              * cisR (Real.pi / x.length * (((k - m : ℕ) : ℝ) * ((k - m : ℕ) : ℝ)))
              * cisR (-(Real.pi / x.length * (k * k)))
            = x.getD m 0 * (cisR (-(Real.pi / x.length * (k * k)))
                * cisR (-(Real.pi / x.length * (m * m)))
                * cisR (Real.pi / x.length * (((k - m : ℕ) : ℝ) * ((k - m : ℕ) : ℝ)))) := by ring
          _ = x.getD m 0 * omegaC x.length ^ (k * m) := by rw [hc]
    rw [hrestrict, Finset.sum_mul, dft_getD x hk]
    exact Finset.sum_congr rfl hterm

/-- Go `FFT` computes the DFT of its input — every length (power of two via
radix-2, otherwise via Bluestein) and every worker-pool configuration. -/
theorem FFT_eq_dft (wps gmp : ℕ) (x : List ℂ) : FFT wps gmp x = dft x := by
  unfold FFT
  by_cases h1 : x.length ≤ 1
  · exact FFTd_eq_dft_pow2 1 wps gmp x (Or.inl h1)
  by_cases h2 : IsPowerOf2 x.length = true
  · exact FFTd_eq_dft_pow2 1 wps gmp x (Or.inr h2)
  · show (if x.length ≤ 1 then x
      else if IsPowerOf2 x.length then radix2FFT wps gmp x
      else bluesteinFFT (FFTd 1 wps gmp) x) = dft x
    rw [if_neg h1, if_neg (by simpa using h2)]
    apply bluesteinFFT_eq_dft
    · omega
    · intro y hy
      apply FFTd_eq_dft_pow2 0 wps gmp y
      right
      rw [hy]
      obtain ⟨s, hs⟩ := @NextPowerOf2_pow2 (x.length * 2 - 1) (by omega)
      rw [hs]
      exact IsPowerOf2_two_pow s

/-! ## Facade corollaries: round trips and lengths -/

theorem FFT_length (wps gmp : ℕ) (x : List ℂ) :
    (FFT wps gmp x).length = x.length := by
  rw [FFT_eq_dft, dft_length]

theorem dft_map_div (z : List ℂ) (c : ℂ) :
    dft (z.map (fun v => v / c)) = (dft z).map (fun v => v / c) := by
  apply list_eq_of_getD
  · rw [dft_length, List.length_map, List.length_map, dft_length]
  · intro i hi
    rw [dft_length, List.length_map] at hi
    rw [dft_getD _ (by rw [List.length_map]; exact hi),
      getD_map_div _ _ (by rw [dft_length]; exact hi), dft_getD _ hi,
      List.length_map, Finset.sum_div]
    apply Finset.sum_congr rfl
    intro n hn
    rw [getD_map_div _ _ (Finset.mem_range.mp hn)]
    ring

theorem mirror_invol_idx {N k : ℕ} (hN : 1 ≤ N) (hk : k < N) :
    (N - (N - k) % N) % N = k := by
  by_cases h0 : k = 0
  · subst h0
    simp [Nat.mod_self]
  · have h1 : (N - k) % N = N - k := Nat.mod_eq_of_lt (by omega)
    rw [h1]
    have h2 : N - (N - k) = k := by omega
    rw [h2, Nat.mod_eq_of_lt hk]

/-- `IFFT` after `FFT` recovers the input exactly (ideal arithmetic), for any
nonempty input and any worker-pool configurations on the two calls. -/
theorem IFFT_FFT (wps gmp wps2 gmp2 : ℕ) (x : List ℂ) (hx : 1 ≤ x.length) :
    IFFT wps gmp (FFT wps2 gmp2 x) = some x := by
  unfold IFFT IFFTvia
  rw [FFT_eq_dft wps2 gmp2 x]
  dsimp only
  rw [if_neg (by rw [dft_length]; omega)]
  congr 1
  rw [FFT_eq_dft wps gmp, dft_length]
  apply list_eq_of_getD
  · rw [List.length_map, dft_length, mirrorList_length, dft_length]
  · intro i hi
    rw [List.length_map, dft_length, mirrorList_length, dft_length] at hi
    rw [getD_map_div _ _ (by rw [dft_length, mirrorList_length, dft_length]; exact hi)]
    rw [dft_mirror_dft x hx hi]
    have hne : ((x.length : ℂ)) ≠ 0 := by
      exact_mod_cast (by omega : x.length ≠ 0)
    field_simp

theorem IFFT_eq (wps gmp : ℕ) (x : List ℂ) (hx : 1 ≤ x.length) :
    IFFT wps gmp x
      = some ((FFT wps gmp (mirrorList x)).map (fun c => c / (x.length : ℂ))) := by
  unfold IFFT IFFTvia
  dsimp only
  rw [if_neg (by omega)]

/-- `FFT` after `IFFT` recovers the input exactly (ideal arithmetic), for any
nonempty input and any worker-pool configurations on the two calls. -/
theorem FFT_IFFT (wps gmp wps2 gmp2 : ℕ) (x : List ℂ) (hx : 1 ≤ x.length) :
    (IFFT wps gmp x).map (FFT wps2 gmp2) = some x := by
  rw [IFFT_eq wps gmp x hx, Option.map_some']
  congr 1
  rw [FFT_eq_dft wps gmp, FFT_eq_dft wps2 gmp2, dft_map_div]
  apply list_eq_of_getD
  · rw [List.length_map, dft_length, dft_length, mirrorList_length]
  · intro i hi
    rw [List.length_map, dft_length, dft_length, mirrorList_length] at hi
    rw [getD_map_div _ _ (by rw [dft_length, dft_length, mirrorList_length]; exact hi)]
    rw [dft_dft_entry (mirrorList x) (by rw [mirrorList_length]; omega)
      (by rw [mirrorList_length]; exact hi)]
    rw [mirrorList_length]
    rw [mirrorList_getD x (Nat.mod_lt _ (by omega))]
    rw [mirror_invol_idx (by omega) hi]
    have hne : ((x.length : ℂ)) ≠ 0 := by
      exact_mod_cast (by omega : x.length ≠ 0)
    field_simp

theorem Convolve_eq_circ (wps gmp : ℕ) (x y : List ℂ)
    (hxy : y.length = x.length) (hx : 1 ≤ x.length) :
    Convolve wps gmp x y = some (circConv x y) := by
  unfold Convolve
  exact Convolvevia_circ (FFT wps gmp) x y hxy hx (fun z _ => FFT_eq_dft wps gmp z)

/-! ## Small closed-form transforms -/

theorem getD_replicate (c : ℂ) {n k : ℕ} (h : k < n) :
    (List.replicate n c).getD k 0 = c := by
  rw [List.getD_eq_getElem _ _ (by simpa using h), List.getElem_replicate]

theorem omegaC_two : omegaC 2 = -1 := by
  rw [omegaC_def]
  have h : -(2 * Real.pi / ((2 : ℕ) : ℝ)) = -Real.pi := by push_cast; ring
  rw [h, cisR_eq]
  simp [Real.cos_pi, Real.sin_pi]

/-- `FFT` of a two-element list is the twiddle-free butterfly `[a+b, a-b]`. -/
theorem FFT_pair (wps gmp : ℕ) (a b : ℂ) :
    FFT wps gmp [a, b] = [a + b, a - b] := by
  rw [FFT_eq_dft]
  apply list_eq_of_getD
  · rw [dft_length]; rfl
  · intro i hi
    rw [dft_length] at hi
    rw [dft_getD _ hi]
    have hl : ([a, b] : List ℂ).length = 2 := rfl
    rw [hl]
    have hi2 : i < 2 := by simpa [hl] using hi
    interval_cases i
    · simp [Finset.sum_range_succ]
    · simp [Finset.sum_range_succ, omegaC_two]
      ring

/-- `FFT` of the length-`N` impulse `[1,0,…,0]` is the all-ones list. -/
theorem FFT_impulse (wps gmp N : ℕ) (hN : 1 ≤ N) :
    FFT wps gmp ((1 : ℂ) :: List.replicate (N - 1) 0) = List.replicate N 1 := by
  rw [FFT_eq_dft]
  have hlen : ((1 : ℂ) :: List.replicate (N - 1) 0).length = N := by
    simp; omega
  apply list_eq_of_getD
  · rw [dft_length, hlen, List.length_replicate]
  · intro k hk
    rw [dft_length, hlen] at hk
    rw [dft_getD _ (by rw [hlen]; exact hk), hlen, getD_replicate _ hk]
    rw [Finset.sum_eq_single 0]
    · simp
    · intro n hn hn0
      have hn' : n < N := Finset.mem_range.mp hn
      have h0 : ((1 : ℂ) :: List.replicate (N - 1) 0).getD n 0 = 0 := by
        rcases n with _ | m
        · exact absurd rfl hn0
        · show (List.replicate (N - 1) (0 : ℂ)).getD m 0 = 0
          rcases Nat.lt_or_ge m (N - 1) with hlt | hge
          · exact getD_replicate _ hlt
          · exact getD_default (by simpa using hge)
      rw [h0, zero_mul]
    · intro hcon
      exact absurd (Finset.mem_range.mpr (by omega)) hcon

/-! ## Degenerate lengths -/

theorem FFT_nil (wps gmp : ℕ) : FFT wps gmp [] = [] := rfl

theorem FFT_singleton (wps gmp : ℕ) (a : ℂ) : FFT wps gmp [a] = [a] := rfl

theorem IFFT_nil (wps gmp : ℕ) : IFFT wps gmp [] = none := rfl

theorem IFFT_singleton (wps gmp : ℕ) (a : ℂ) : IFFT wps gmp [a] = some [a] := by
  rw [IFFT_eq wps gmp [a] (by simp)]
  have h1 : mirrorList [a] = [a] := rfl
  rw [h1]
  have h2 : FFT wps gmp [a] = [a] := rfl
  rw [h2]
  simp

/-! ## `reorderData` is a permutation -/

theorem reorderData_ofFn {s : ℕ} (x : List ℂ) (hx : x.length = 2 ^ s) :
    reorderData x
      = List.ofFn (fun i : Fin x.length => x.getD (bitRev s (i : ℕ)) 0) := by
  apply list_eq_of_getD
  · rw [reorderData_length, List.length_ofFn]
  · intro i hi
    rw [reorderData_length] at hi
    rw [reorderData_getD' x hx hi, ofFn_getD _ hi]

theorem reorderData_perm {s : ℕ} (x : List ℂ) (hx : x.length = 2 ^ s) :
    (reorderData x).Perm x := by
  have hσl : ∀ i : Fin x.length, bitRev s (i : ℕ) < x.length := by
    intro i
    have h1 : (i : ℕ) < x.length := i.2
    have h2 : (i : ℕ) < 2 ^ s := by omega
    have h3 := bitRev_lt h2
    omega
  have hf : Function.Involutive
      (fun i : Fin x.length => (⟨bitRev s (i : ℕ), hσl i⟩ : Fin x.length)) := by
    intro i
    apply Fin.ext
    exact bitRev_bitRev (hx ▸ i.2)
  have hperm := Equiv.Perm.ofFn_comp_perm (Function.Involutive.toPerm _ hf)
    (fun i : Fin x.length => x.getD (i : ℕ) 0)
  have h3 : ((fun i : Fin x.length => x.getD (i : ℕ) 0)
      ∘ (Function.Involutive.toPerm _ hf))
      = fun i : Fin x.length => x.getD (bitRev s (i : ℕ)) 0 := rfl
  rw [h3] at hperm
  have h2 : List.ofFn (fun i : Fin x.length => x.getD (i : ℕ) 0) = x := by
    apply list_eq_of_getD
    · rw [List.length_ofFn]
    · intro i hi
      rw [List.length_ofFn] at hi
      rw [ofFn_getD _ hi]
  rw [← reorderData_ofFn x hx, h2] at hperm
  exact hperm

/-! ## 2-D wrapper error behaviour -/

theorem computeFFT2_empty (x : List (List ℂ)) (f : List ℂ → Option (List ℂ))
    (h : x.length = 0) : computeFFT2 x f = none := by
  unfold computeFFT2
  dsimp only
  rw [if_pos h]

theorem computeFFT2_ragged (x : List (List ℂ)) (f : List ℂ → Option (List ℂ))
    (h : ∃ i < x.length, (x.getD i []).length ≠ (x.getD 0 []).length) :
    computeFFT2 x f = none := by
  obtain ⟨i, hi, hne⟩ := h
  unfold computeFFT2
  dsimp only
  rw [if_neg (by omega)]
  have hall : ¬ (x.all (fun row => row.length == (x.getD 0 []).length) = true) := by
    rw [List.all_eq_true]
    intro hall
    have hmem : x.getD i [] ∈ x := by
      rw [List.getD_eq_getElem _ _ hi]
      exact List.getElem_mem hi
    have hrow := hall _ hmem
    rw [beq_iff_eq] at hrow
    exact hne hrow
  rw [if_neg hall]

theorem ToComplex2_length (x : List (List ℝ)) : (ToComplex2 x).length = x.length := by
  simp [ToComplex2]

theorem ToComplex2_getD_length (x : List (List ℝ)) {i : ℕ} (hi : i < x.length) :
    ((ToComplex2 x).getD i []).length = (x.getD i []).length := by
  unfold ToComplex2
  rw [List.getD_eq_getElem _ _ (by simpa using hi), List.getElem_map,
    List.getD_eq_getElem _ _ hi]
  unfold ToComplex
  rw [List.length_map]

/-! ## The claims -/

/-- Claim C1: round-trip identity.  As stated it fails for the empty
sequence (`IFFT` panics on empty input); for every nonempty sequence both
round trips recover the input exactly, under any worker-pool
configurations on the two calls. -/
theorem C1_round_trip (wps gmp wps2 gmp2 : ℕ) (x : List ℂ) (hx : 1 ≤ x.length) :
    IFFT wps gmp (FFT wps2 gmp2 x) = some x
      ∧ (IFFT wps gmp x).map (FFT wps2 gmp2) = some x :=
  ⟨IFFT_FFT wps gmp wps2 gmp2 x hx, FFT_IFFT wps gmp wps2 gmp2 x hx⟩

theorem C1_round_trip_witness :
    IFFT 0 0 (FFT 0 0 [(1 : ℂ)]) = some [(1 : ℂ)]
      ∧ (IFFT 0 0 [(1 : ℂ)]).map (FFT 0 0) = some [(1 : ℂ)] :=
  C1_round_trip 0 0 0 0 [(1 : ℂ)] (by simp)

theorem C1_round_trip_cex :
    IFFT 0 0 (FFT 0 0 ([] : List ℂ)) = none
      ∧ (IFFT 0 0 ([] : List ℂ)).map (FFT 0 0) = none :=
  ⟨rfl, rfl⟩

/-- Claim C2: the forward transform of the length-`N` impulse
`[1, 0, …, 0]` is the all-ones sequence, for every `N ≥ 1` — the radix-2
and Bluestein paths alike (`FFT` covers both). -/
theorem C2_impulse (wps gmp N : ℕ) (hN : 1 ≤ N) :
    FFT wps gmp ((1 : ℂ) :: List.replicate (N - 1) 0) = List.replicate N 1 :=
  FFT_impulse wps gmp N hN

theorem C2_impulse_witness :
    FFT 0 0 ((1 : ℂ) :: List.replicate 2 0) = List.replicate 3 1 :=
  C2_impulse 0 0 3 (by omega)

/-- Claim C3: `Convolve` panics (`none`) on a length mismatch and never
returns a partial result; on equal lengths the claim's promised normal
result of length `len(x)` only exists for nonempty inputs — for
`x = y = []` the inner `IFFT` panics, so equal lengths alone do not
suffice (see the counterexample). -/
theorem C3_convolve (wps gmp : ℕ) (x y : List ℂ) :
    (x.length ≠ y.length → Convolve wps gmp x y = none)
      ∧ (x.length = y.length → 1 ≤ x.length →
          ∃ r, Convolve wps gmp x y = some r ∧ r.length = x.length) := by
  constructor
  · intro hne
    unfold Convolve Convolvevia
    rw [if_pos hne]
  · intro heq hx
    exact ⟨circConv x y, Convolve_eq_circ wps gmp x y heq.symm hx,
      circConv_length x y⟩

theorem C3_convolve_witness :
    Convolve 0 0 [(1 : ℂ)] [] = none
      ∧ ∃ r, Convolve 0 0 [(1 : ℂ), 0] [(0 : ℂ), 1] = some r ∧ r.length = 2 :=
  ⟨(C3_convolve 0 0 [(1 : ℂ)] []).1 (by simp),
   (C3_convolve 0 0 [(1 : ℂ), 0] [(0 : ℂ), 1]).2 rfl (by simp)⟩

theorem C3_convolve_cex : Convolve 0 0 ([] : List ℂ) ([] : List ℂ) = none := rfl

/-- Claim C4: length 0 and 1 are defined successes.  True of `FFT` (empty
and singleton returned unchanged) and of `IFFT` on a singleton, but `IFFT`
on the empty sequence panics (`r[0] = x[0]` on a zero-length slice) — see
the counterexample. -/
theorem C4_degenerate (wps gmp : ℕ) (a : ℂ) :
    FFT wps gmp ([] : List ℂ) = []
      ∧ FFT wps gmp [a] = [a]
      ∧ IFFT wps gmp [a] = some [a] :=
  ⟨FFT_nil wps gmp, FFT_singleton wps gmp a, IFFT_singleton wps gmp a⟩

theorem C4_degenerate_cex : IFFT 0 0 ([] : List ℂ) = none := rfl

/-- Claim C5: for length `2^s`, `reorderData` returns a new sequence with
`output[reverseBits(i, s)] = input[i]` for every `i`, and the output is a
permutation of the input. -/
theorem C5_reorder (s : ℕ) (hs : 1 ≤ s) (x : List ℂ) (hx : x.length = 2 ^ s) :
    (reorderData x).length = x.length
      ∧ (∀ i < x.length, (reorderData x).getD (reverseBits i s) 0 = x.getD i 0)
      ∧ (reorderData x).Perm x := by
  refine ⟨reorderData_length x, ?_, reorderData_perm x hx⟩
  intro i hi
  rw [reverseBits_eq_bitRev (show i < 2 ^ s from hx ▸ hi)]
  exact reorderData_getD x hx hi

theorem C5_reorder_witness :
    (reorderData [(1 : ℂ), 2]).length = 2
      ∧ (∀ i < ([(1 : ℂ), 2] : List ℂ).length,
          (reorderData [(1 : ℂ), 2]).getD (reverseBits i 1) 0
            = ([(1 : ℂ), 2] : List ℂ).getD i 0)
      ∧ (reorderData [(1 : ℂ), 2]).Perm [(1 : ℂ), 2] :=
  C5_reorder 1 (by omega) [(1 : ℂ), 2] (by norm_num)

/-- Claim C6: for every power of two `L = 2^e ≥ 4` the table has exactly
`L` entries and entry `k` is `ω_L^k = e^{-2πik/L}`; the claimed even-index
reuse from the `L/2` table, however, only holds from `L = 8` up — for
`L = 4` the `L/2 = 2` table does not exist (`getRadix2Factors 2 = []`),
see the counterexample. -/
theorem C6_twiddle (e : ℕ) (he : 2 ≤ e) :
    (getRadix2Factors (2 ^ e)).length = 2 ^ e
      ∧ (∀ k < 2 ^ e, (getRadix2Factors (2 ^ e)).getD k 0 = omegaC (2 ^ e) ^ k)
      ∧ (3 ≤ e → ∀ j < 2 ^ (e - 1),
          (getRadix2Factors (2 ^ e)).getD (2 * j) 0
            = (getRadix2Factors (2 ^ (e - 1))).getD j 0) := by
  have h2e : (2 : ℕ) ^ e = 2 * 2 ^ (e - 1) := by
    have : e - 1 + 1 = e := by omega
    calc (2 : ℕ) ^ e = 2 ^ (e - 1 + 1) := by rw [this]
      _ = 2 * 2 ^ (e - 1) := by rw [pow_succ]; ring
  refine ⟨getRadix2Factors_length_pow2 e he, getRadix2Factors_getD_pow2 e he, ?_⟩
  intro he3 j hj
  rw [getRadix2Factors_getD_pow2 e he (2 * j) (by omega),
    getRadix2Factors_getD_pow2 (e - 1) (by omega) j hj, h2e,
    pow_mul (omegaC (2 * 2 ^ (e - 1))) 2 j,
    omegaC_double_sq _ Nat.one_le_two_pow]

theorem C6_twiddle_witness :
    (getRadix2Factors (2 ^ 3)).length = 2 ^ 3
      ∧ (∀ k < 2 ^ 3, (getRadix2Factors (2 ^ 3)).getD k 0 = omegaC (2 ^ 3) ^ k)
      ∧ (3 ≤ 3 → ∀ j < 2 ^ (3 - 1),
          (getRadix2Factors (2 ^ 3)).getD (2 * j) 0
            = (getRadix2Factors (2 ^ (3 - 1))).getD j 0) :=
  C6_twiddle 3 (by omega)

theorem C6_twiddle_cex :
    (getRadix2Factors 4).getD (2 * 0) 0 ≠ (getRadix2Factors (4 / 2)).getD 0 0 := by
  have h4 : getRadix2Factors 4 = radix2FactorsExp 0 := by
    rw [show (4 : ℕ) = 2 ^ (0 + 2) by norm_num, getRadix2Factors_pow2]
  rw [h4, getRadix2Factors_two]
  show (([1, -Complex.I, -1, Complex.I] : List ℂ)).getD 0 0 ≠ ([] : List ℂ).getD 0 0
  simp

/-- Claim C7: the 2-D wrappers panic (`none`) on zero rows and on a ragged
input — but a rectangular input with one or more rows of length zero is a
zero-length dimension that `FFT2` maps to a normal result (`FFT2 [[]] =
some [[]]`, see the counterexample), refuting "never yields a normal
result".  The `forwardFFTN` half of the claim is not checkable against
`src/`: `computeFFTN` itself contains no empty-dimension check and the
`dsputils.Matrix` implementation it delegates to is absent. -/
theorem C7_fft2_errors (wps gmp : ℕ) (x : List (List ℂ)) (y : List (List ℝ)) :
    (x.length = 0 → FFT2 wps gmp x = none ∧ IFFT2 wps gmp x = none)
      ∧ ((∃ i < x.length, (x.getD i []).length ≠ (x.getD 0 []).length) →
          FFT2 wps gmp x = none ∧ IFFT2 wps gmp x = none)
      ∧ ((∃ i < y.length, (y.getD i []).length ≠ (y.getD 0 []).length) →
          FFT2Real wps gmp y = none ∧ IFFT2Real wps gmp y = none) := by
  refine ⟨fun h => ⟨computeFFT2_empty x _ h, computeFFT2_empty x _ h⟩,
    fun h => ⟨computeFFT2_ragged x _ h, computeFFT2_ragged x _ h⟩, fun h => ?_⟩
  obtain ⟨i, hi, hne⟩ := h
  have h' : ∃ i < (ToComplex2 y).length,
      ((ToComplex2 y).getD i []).length ≠ ((ToComplex2 y).getD 0 []).length := by
    refine ⟨i, by rw [ToComplex2_length]; exact hi, ?_⟩
    rw [ToComplex2_getD_length y hi, ToComplex2_getD_length y (by omega)]
    exact hne
  exact ⟨computeFFT2_ragged (ToComplex2 y) (fun v => some (FFT wps gmp v)) h',
    computeFFT2_ragged (ToComplex2 y) (IFFT wps gmp) h'⟩

theorem C7_fft2_errors_witness :
    (FFT2 0 0 [[(1 : ℂ)], []] = none ∧ IFFT2 0 0 [[(1 : ℂ)], []] = none)
      ∧ (FFT2Real 0 0 [[(1 : ℝ)], []] = none ∧ IFFT2Real 0 0 [[(1 : ℝ)], []] = none) :=
  ⟨(C7_fft2_errors 0 0 [[(1 : ℂ)], []] [[(1 : ℝ)], []]).2.1
      ⟨1, by norm_num, by norm_num⟩,
   (C7_fft2_errors 0 0 [[(1 : ℂ)], []] [[(1 : ℝ)], []]).2.2
      ⟨1, by norm_num, by norm_num⟩⟩

theorem C7_fft2_errors_cex : FFT2 0 0 [([] : List ℂ)] = some [[]] := rfl

/-- Claim C8: the forward transform is numerically identical under any two
worker-pool configurations (`SetWorkerPoolSize` argument and
`GOMAXPROCS`) — the pool size only chunks the butterfly ranges. -/
theorem C8_pool_independence (n1 n2 : ℤ) (gmp1 gmp2 : ℕ) (x : List ℂ) :
    FFT (SetWorkerPoolSize n1) gmp1 x = FFT (SetWorkerPoolSize n2) gmp2 x := by
  rw [FFT_eq_dft, FFT_eq_dft]

/-- Claim C9: `FFT` preserves the input length for every input; `IFFT` and
`Convolve` (on equal-length operands) return a sequence of the input's
length for every nonempty input — Bluestein's internal padding is always
truncated back. -/
theorem C9_lengths (wps gmp : ℕ) (x y : List ℂ) :
    (FFT wps gmp x).length = x.length
      ∧ (1 ≤ x.length → ∃ r, IFFT wps gmp x = some r ∧ r.length = x.length)
      ∧ (y.length = x.length → 1 ≤ x.length →
          ∃ r, Convolve wps gmp x y = some r ∧ r.length = x.length) := by
  refine ⟨FFT_length wps gmp x, fun hx => ?_, fun hxy hx =>
    ⟨circConv x y, Convolve_eq_circ wps gmp x y hxy hx, circConv_length x y⟩⟩
  refine ⟨(FFT wps gmp (mirrorList x)).map (fun c => c / (x.length : ℂ)),
    IFFT_eq wps gmp x hx, ?_⟩
  rw [List.length_map, FFT_length, mirrorList_length]

theorem C9_lengths_witness :
    (FFT 0 0 [(1 : ℂ), 2, 3]).length = 3
      ∧ (∃ r, IFFT 0 0 [(1 : ℂ), 2, 3] = some r ∧ r.length = 3)
      ∧ ∃ r, Convolve 0 0 [(1 : ℂ), 2, 3] [(0 : ℂ), 1, 2] = some r ∧ r.length = 3 := by
  have h := C9_lengths 0 0 [(1 : ℂ), 2, 3] [(0 : ℂ), 1, 2]
  exact ⟨h.1, h.2.1 (by simp), h.2.2 rfl (by simp)⟩

/-- Claim C10: a length-2 input dispatches to the radix-2 engine, whose
twiddle lookup `getRadix2Factors 2` is `nil` — harmless, since the single
stage is the multiplier-free 2-point butterfly, and
`FFT [a, b] = [a+b, a-b]`. -/
theorem C10_length_two (wps gmp : ℕ) (a b : ℂ) :
    getRadix2Factors 2 = []
      ∧ FFT wps gmp [a, b] = radix2FFT wps gmp [a, b]
      ∧ FFT wps gmp [a, b] = [a + b, a - b] := by
  refine ⟨getRadix2Factors_two, ?_, FFT_pair wps gmp a b⟩
  show (if ([a, b] : List ℂ).length ≤ 1 then [a, b]
    else if IsPowerOf2 ([a, b] : List ℂ).length then radix2FFT wps gmp [a, b]
    else bluesteinFFT (FFTd 1 wps gmp) [a, b]) = radix2FFT wps gmp [a, b]
  have hl : ([a, b] : List ℂ).length = 2 := rfl
  rw [if_neg (by norm_num), hl, if_pos (show IsPowerOf2 2 = true by decide)]

end GoDSP
